import Mathlib

/-
Verification development for the bcoin chain-acceptance engine and the
MemBlock primitive.

The repository excerpt contains `lib/bcoin/memblock.js` (embedded below in
the `MemB` and `JsEnv` namespaces directly from the source) and the chain
test-suite `test/chain-test.js`.  The chain orchestrator, consensus
verifier, chain database and deployment state machine themselves are not
part of the excerpt, only their tests; those components are modelled from
the specification (each such definition carries a doc comment starting
with `Modelled from the spec:`).
-/

namespace Bcoin

/-! ## Basic data model: outpoints, coins, the UTXO set -/

/-- Modelled from the spec: a reference to a transaction output,
`(tx-hash, index)`.  Hashes are abstract identifiers, modelled as `Nat`. -/
structure Outpoint where
  txid : Nat
  index : Nat
deriving DecidableEq

/-- Modelled from the spec: a single unspent transaction output — value,
coinbase flag, and the height of the block that created it. -/
structure Coin where
  value : Nat
  coinbase : Bool
  height : Nat
deriving DecidableEq

/-- Modelled from the spec: the live UTXO set, a finite map from outpoints
to coins represented as an association list. -/
abbrev UTXO := List (Outpoint × Coin)

/-- Look a coin up in the UTXO set. -/
def lookupCoin (u : UTXO) (p : Outpoint) : Option Coin :=
  match u with
  | [] => none
  | kv :: rest => if kv.1 = p then some kv.2 else lookupCoin rest p

/-- Remove every binding for an outpoint from the UTXO set. -/
def eraseCoin (u : UTXO) (p : Outpoint) : UTXO :=
  u.filter (fun kv => kv.1 ≠ p)

/-- Insert (or overwrite) a binding in the UTXO set. -/
def insertCoin (u : UTXO) (p : Outpoint) (c : Coin) : UTXO :=
  (p, c) :: eraseCoin u p

/-- Total value held by the UTXO set. -/
def utxoValue (u : UTXO) : Nat :=
  match u with
  | [] => 0
  | kv :: rest => kv.2.value + utxoValue rest

/-- The keys of the UTXO map are pairwise distinct. -/
def nodupKeys (u : UTXO) : Prop :=
  (u.map Prod.fst).Nodup

instance (u : UTXO) : Decidable (nodupKeys u) := by
  unfold nodupKeys; infer_instance

/-! ## Blocks and transactions

Modelled from the spec: the block-source collaborator supplies raw blocks
with header fields and an ordered transaction list; serialization is an
opaque codec, so per-transaction byte sizes are carried as data. -/

/-- Modelled from the spec: a transaction input — the outpoint it spends
and its witness stack (a list of byte arrays). -/
structure TxIn where
  prevout : Outpoint
  witness : List (List Nat)
deriving DecidableEq

/-- Modelled from the spec: a transaction output — a value and, when the
script is a segwit commitment output, the committed payload. -/
structure TxOut where
  value : Nat
  commit : Option Nat
deriving DecidableEq

/-- Modelled from the spec: a transaction with its id, witness-modified id,
inputs, outputs, and opaque serialized sizes (base and witness bytes). -/
structure Tx where
  txid : Nat
  wtxid : Nat
  inputs : List TxIn
  outputs : List TxOut
  baseSize : Nat
  witnessSize : Nat
deriving DecidableEq

/-- Modelled from the spec: a block header (hash, parent hash, version,
timestamp, difficulty bits). -/
structure BlockHeader where
  hash : Nat
  prevBlock : Nat
  version : Nat
  ts : Nat
  bits : Nat
deriving DecidableEq

/-- Modelled from the spec: a block — header plus ordered transaction
list, the first transaction being the coinbase. -/
structure Block where
  header : BlockHeader
  txs : List Tx
deriving DecidableEq

/-- Modelled from the spec: fixed byte limit on total serialized size. -/
def MAX_BLOCK_SIZE : Nat := 1000000

/-- Modelled from the spec: fixed weight limit. -/
def MAX_BLOCK_WEIGHT : Nat := 4000000

/-- Modelled from the spec: the scale factor applied to base size in the
weight formula. -/
def WITNESS_SCALE_FACTOR : Nat := 4

/-- Modelled from the spec: the fixed number of confirmations a coinbase
output must mature before it may be spent. -/
def COINBASE_MATURITY : Nat := 100

/-- Total serialized size of a block (header bytes plus each
transaction's base and witness bytes). -/
def blockSize (b : Block) : Nat :=
  80 + (b.txs.map (fun t => t.baseSize + t.witnessSize)).sum

/-- Base (witness-stripped) serialized size of a block. -/
def blockBaseSize (b : Block) : Nat :=
  80 + (b.txs.map Tx.baseSize).sum

/-- Modelled from the spec: weighted size = base size × scale factor +
witness size. -/
def blockWeight (b : Block) : Nat :=
  blockBaseSize b * WITNESS_SCALE_FACTOR + (b.txs.map Tx.witnessSize).sum

/-- Whether any transaction of the block carries witness data. -/
def hasWitness (b : Block) : Bool :=
  b.txs.any (fun t => t.inputs.any (fun i => !i.witness.isEmpty))

/-- Modelled from the spec: the Merkle root of the witness-modified
transaction hashes; the tree hash itself is an opaque collaborator,
modelled by an injective pairing fold. -/
def witnessRoot (b : Block) : Nat :=
  (b.txs.map Tx.wtxid).foldl Nat.pair 0

/-- Modelled from the spec: combining the witness Merkle root with the
32-byte nonce into the commitment hash (opaque hash collaborator). -/
def commitHash (root : Nat) (nonce : List Nat) : Nat :=
  Nat.pair root (nonce.foldl Nat.pair 0)

/-- The committed payload of the coinbase: the payload of its last
commitment output, if any. -/
def commitPayload (cb : Tx) : Option Nat :=
  (cb.outputs.filterMap TxOut.commit).getLast?

/-- Modelled from the spec §4.2/§4.4: the stable rejection reasons used by
the claims (a subset of the full enumeration). -/
inductive Reason where
  | bad_prevblk
  | bad_cb_missing
  | bad_blk_length
  | bad_blk_weight
  | bad_witness_nonce_size
  | bad_witness_merkle_match
  | unexpected_witness
  | bad_txns_inputs_missingorspent
  | bad_txns_premature_spend_of_coinbase
  | internal_error
deriving DecidableEq

/-- Modelled from the spec: the witness-commitment check, run once
segwit-equivalent rules are active.  The nonce stack (the coinbase's own
witness stack) must be exactly one 32-byte element; the commitment payload
must equal the witness Merkle root combined with the nonce; witness data
without a commitment output fails; a commitment without witness data is
ignored. -/
def witnessCheck (segwit : Bool) (b : Block) : Option Reason :=
  if !segwit then none
  else if !hasWitness b then none
  else
    match b.txs with
    | [] => some .bad_cb_missing
    | cb :: _ =>
      match commitPayload cb with
      | none => some .unexpected_witness
      | some payload =>
        match cb.inputs with
        | [] => some .bad_witness_nonce_size
        | inp :: _ =>
          match inp.witness with
          | [nonce] =>
            if nonce.length ≠ 32 then some .bad_witness_nonce_size
            else if payload ≠ commitHash (witnessRoot b) nonce then
              some .bad_witness_merkle_match
            else none
          | _ => some .bad_witness_nonce_size

/-- Modelled from the spec §4.2: the block-level checks the claims
exercise, in the order the spec lists them — witness commitment, then
serialized size (`bad-blk-length`, applied to the witness-stripped base
size, which is the serialized size the byte limit governs), then weight
(`bad-blk-weight`). -/
def checkBlock (segwit : Bool) (b : Block) : Option Reason :=
  match witnessCheck segwit b with
  | some r => some r
  | none =>
    if blockBaseSize b > MAX_BLOCK_SIZE then some .bad_blk_length
    else if blockWeight b > MAX_BLOCK_WEIGHT then some .bad_blk_weight
    else none

/-! ## Chain index, aggregate state, and the chain record -/

/-- Modelled from the spec: the aggregate chain state — total UTXO value,
total unspent coin count, total transaction count on the main chain. -/
structure ChainState where
  value : Nat
  coin : Nat
  tx : Nat
deriving DecidableEq

/-- Modelled from the spec: lifecycle events fired after each committed
state change. -/
inductive Event where
  | connect (h : Nat)
  | disconnect (h : Nat)
  | reorganize (h : Nat)
deriving DecidableEq

/-- Modelled from the spec: an immutable header record plus derived
metadata; `chainwork` is cumulative. -/
structure ChainEntry where
  hash : Nat
  prevBlock : Nat
  height : Nat
  version : Nat
  ts : Nat
  bits : Nat
  chainwork : Nat
deriving DecidableEq

/-- Undo record for one transaction: the coins its inputs spent. -/
abbrev Undo := List (Outpoint × Coin)

/-- Modelled from the spec: the persistent chain — the index of all known
entries, stored blocks and undo data keyed by hash, the best tip hash, the
live UTXO set, the aggregate state, a snapshot of whether the
segwit-equivalent deployment is active, and the log of emitted events. -/
structure Chain where
  entries : List ChainEntry
  blocks : List (Nat × Block)
  undos : List (Nat × List Undo)
  tip : Nat
  utxo : UTXO
  state : ChainState
  segwit : Bool
  events : List Event
deriving DecidableEq

/-- Generic association-list lookup with `Nat` keys. -/
def assocFind {α : Type} (l : List (Nat × α)) (h : Nat) : Option α :=
  match l with
  | [] => none
  | kv :: rest => if kv.1 = h then some kv.2 else assocFind rest h

/-- Generic association-list insert (overwrite) with `Nat` keys. -/
def assocInsert {α : Type} (l : List (Nat × α)) (h : Nat) (a : α) : List (Nat × α) :=
  (h, a) :: l.filter (fun kv => kv.1 ≠ h)

/-- Look an entry up in a list of entries by hash. -/
def findEntryIn (l : List ChainEntry) (h : Nat) : Option ChainEntry :=
  match l with
  | [] => none
  | e :: rest => if e.hash = h then some e else findEntryIn rest h

/-- Look an entry up in the chain index by hash. -/
def findEntry (c : Chain) (h : Nat) : Option ChainEntry :=
  findEntryIn c.entries h

/-- Insert an entry into the index (overwriting any entry of that hash). -/
def insertEntry (l : List ChainEntry) (e : ChainEntry) : List ChainEntry :=
  e :: l.filter (fun x => x.hash ≠ e.hash)

/-- Retrieve a stored block by hash. -/
def getBlock (c : Chain) (h : Nat) : Option Block :=
  assocFind c.blocks h

/-- Retrieve stored undo data by hash. -/
def getUndo (c : Chain) (h : Nat) : Option (List Undo) :=
  assocFind c.undos h

/-- The entry of the current best tip. -/
def tipEntry (c : Chain) : Option ChainEntry :=
  findEntry c c.tip

/-- The height of the current best tip (0 when the tip is unindexed). -/
def tipHeight (c : Chain) : Nat :=
  (tipEntry c).elim 0 ChainEntry.height

/-- Walk back from a hash along parent links, collecting the hashes
visited; the fuel bounds the walk. -/
def walkPath (c : Chain) : Nat → Nat → List Nat
  | 0, _ => []
  | fuel+1, h =>
    match findEntry c h with
    | none => []
    | some e => h :: walkPath c fuel e.prevBlock

/-- The hashes of the main chain, tip first, down to genesis. -/
def mainPath (c : Chain) : List Nat :=
  walkPath c (tipHeight c + 1) c.tip

/-- Whether a hash lies on the main chain. -/
def isMainChain (c : Chain) (h : Nat) : Bool :=
  decide (h ∈ mainPath c)

/-- The number of transactions of the stored block of a hash
(0 when no block is stored). -/
def blockTxCount (c : Chain) (h : Nat) : Nat :=
  (getBlock c h).elim 0 (fun b => b.txs.length)

/-- The total number of transactions in main-chain blocks. -/
def mainTxs (c : Chain) : Nat :=
  ((mainPath c).map (blockTxCount c)).sum

/-- Modelled from the spec: the expected work of one block, derived from
its difficulty bits; opaque except that it is strictly positive. -/
def blockWork (bits : Nat) : Nat :=
  bits + 1

/-- Modelled from the spec: build the candidate entry for a block whose
parent entry is known — height is the parent's plus one, chainwork is
cumulative. -/
def buildEntry (prev : ChainEntry) (b : Block) : ChainEntry :=
  { hash := b.header.hash
    prevBlock := b.header.prevBlock
    height := prev.height + 1
    version := b.header.version
    ts := b.header.ts
    bits := b.header.bits
    chainwork := prev.chainwork + blockWork b.header.bits }

/-! ## Connecting a block: the CoinView overlay and aggregate deltas -/

/-- Spend a coin out of the view: remove it and shrink the aggregates. -/
def spendCoin (u : UTXO) (st : ChainState) (p : Outpoint) (c : Coin) :
    UTXO × ChainState :=
  (eraseCoin u p, { st with value := st.value - c.value, coin := st.coin - 1 })

/-- Create a coin in the view, adjusting the aggregates exactly (an
overwritten binding trades its old value for the new one). -/
def addCoin (u : UTXO) (st : ChainState) (p : Outpoint) (c : Coin) :
    UTXO × ChainState :=
  match lookupCoin u p with
  | some c0 => (insertCoin u p c, { st with value := st.value - c0.value + c.value })
  | none => (insertCoin u p c, { st with value := st.value + c.value, coin := st.coin + 1 })

/-- Remove a coin from the view if present, adjusting the aggregates. -/
def removeCoin (u : UTXO) (st : ChainState) (p : Outpoint) : UTXO × ChainState :=
  match lookupCoin u p with
  | some c0 => (eraseCoin u p, { st with value := st.value - c0.value, coin := st.coin - 1 })
  | none => (u, st)

/-- Modelled from the spec §4.2: the per-input contextual check — the
input must reference a coin present in the view and not already spent
within this block (`bad-txns-inputs-missingorspent`); a coinbase-sourced
coin must have matured (`bad-txns-premature-spend-of-coinbase`).  On
success the coin is read and spent: removed from the live view and pushed
onto the undo record. -/
def checkInput (height : Nat) (u : UTXO) (st : ChainState) (undo : Undo)
    (inp : TxIn) : Except Reason (UTXO × ChainState × Undo) :=
  match lookupCoin u inp.prevout with
  | none => .error .bad_txns_inputs_missingorspent
  | some coin =>
    if coin.coinbase = true ∧ height < coin.height + COINBASE_MATURITY then
      .error .bad_txns_premature_spend_of_coinbase
    else
      let r := spendCoin u st inp.prevout coin
      .ok (r.1, r.2, (inp.prevout, coin) :: undo)

/-- Check and spend every input of one transaction, in order. -/
def spendAll (height : Nat) (u : UTXO) (st : ChainState) (undo : Undo) :
    List TxIn → Except Reason (UTXO × ChainState × Undo)
  | [] => .ok (u, st, undo)
  | inp :: rest =>
    match checkInput height u st undo inp with
    | .error r => .error r
    | .ok (u', st', undo') => spendAll height u' st' undo' rest

/-- Insert the outputs of a transaction into the view, from index `j`. -/
def addOutputsFrom (txid : Nat) (height : Nat) (isCb : Bool) :
    Nat → UTXO → ChainState → List TxOut → UTXO × ChainState
  | _, u, st, [] => (u, st)
  | j, u, st, o :: rest =>
    let r := addCoin u st ⟨txid, j⟩ ⟨o.value, isCb, height⟩
    addOutputsFrom txid height isCb (j+1) r.1 r.2 rest

/-- Connect one non-coinbase transaction: spend its inputs, then create
its outputs, then count it. -/
def connectOne (height : Nat) (u : UTXO) (st : ChainState) (t : Tx) :
    Except Reason (UTXO × ChainState × Undo) :=
  match spendAll height u st [] t.inputs with
  | .error r => .error r
  | .ok (u1, st1, undo) =>
    let r := addOutputsFrom t.txid height false 0 u1 st1 t.outputs
    .ok (r.1, { r.2 with tx := r.2.tx + 1 }, undo)

/-- Connect the non-coinbase transactions of a block in order,
accumulating the per-transaction undo records. -/
def connectRest (height : Nat) (u : UTXO) (st : ChainState) (acc : List Undo) :
    List Tx → Except Reason (UTXO × ChainState × List Undo)
  | [] => .ok (u, st, acc)
  | t :: rest =>
    match connectOne height u st t with
    | .error r => .error r
    | .ok (u1, st1, undo) => connectRest height u1 st1 (acc ++ [undo]) rest

/-- Modelled from the spec §4.2/§4.3: apply all transactions of a block to
the view — the first transaction is the coinbase (its outputs are created
with the coinbase flag, its inputs are not checked), every later
transaction is checked against the view and applied in order. -/
def connectTxs (height : Nat) (u : UTXO) (st : ChainState) :
    List Tx → Except Reason (UTXO × ChainState × List Undo)
  | [] => .error .bad_cb_missing
  | cb :: rest =>
    let r := addOutputsFrom cb.txid height true 0 u st cb.outputs
    connectRest height r.1 { r.2 with tx := r.2.tx + 1 } [[]] rest

/-- Modelled from the spec §4.3: connect a block — run the block-level
checks, apply every transaction's spends and creations to the persistent
UTXO set, update the aggregate state, store the block and its undo data,
append the entry to the index as the new tip, and emit a `connect` event;
any failure leaves the chain untouched (the caller keeps the old state). -/
def connectBlock (c : Chain) (e : ChainEntry) (b : Block) : Except Reason Chain :=
  match checkBlock c.segwit b with
  | some r => .error r
  | none =>
    match connectTxs e.height c.utxo c.state b.txs with
    | .error r => .error r
    | .ok (u', st', undos) =>
      .ok { c with
        entries := insertEntry c.entries e
        blocks := assocInsert c.blocks e.hash b
        undos := assocInsert c.undos e.hash undos
        tip := e.hash
        utxo := u'
        state := st'
        events := c.events ++ [.connect e.hash] }

/-! ## Disconnecting a block -/

/-- Remove the outputs a transaction created, from index `j`. -/
def removeOutputsFrom (txid : Nat) :
    Nat → UTXO → ChainState → List TxOut → UTXO × ChainState
  | _, u, st, [] => (u, st)
  | j, u, st, _ :: rest =>
    let r := removeCoin u st ⟨txid, j⟩
    removeOutputsFrom txid (j+1) r.1 r.2 rest

/-- Restore the coins recorded in one undo record. -/
def restoreUndo (u : UTXO) (st : ChainState) : Undo → UTXO × ChainState
  | [] => (u, st)
  | pc :: rest =>
    let r := addCoin u st pc.1 pc.2
    restoreUndo r.1 r.2 rest

/-- Undo one transaction: remove the coins it created, restore the coins
it spent. -/
def disconnectTx (u : UTXO) (st : ChainState) (t : Tx) (undo : Undo) :
    UTXO × ChainState :=
  let r := removeOutputsFrom t.txid 0 u st t.outputs
  restoreUndo r.1 r.2 undo

/-- Undo a list of (transaction, undo record) pairs in order. -/
def disconnectTxs (u : UTXO) (st : ChainState) :
    List (Tx × Undo) → UTXO × ChainState
  | [] => (u, st)
  | tu :: rest =>
    let r := disconnectTx u st tu.1 tu.2
    disconnectTxs r.1 r.2 rest

/-- Modelled from the spec §4.3: disconnect the tip block — using the undo
data recorded at connect time, undo every transaction in reverse order
(remove every coin it created, restore every coin it spent), decrement the
aggregate counters, retreat the tip pointer to the entry's parent, and
emit a `disconnect` event. -/
def disconnectBlock (c : Chain) (e : ChainEntry) (b : Block)
    (undos : List Undo) : Chain :=
  let r := disconnectTxs c.utxo c.state ((b.txs.zip undos).reverse)
  { c with
    tip := e.prevBlock
    utxo := r.1
    state := { r.2 with tx := r.2.tx - b.txs.length }
    events := c.events ++ [.disconnect e.hash] }

/-! ## Reorganization and the `add` entry point -/

/-- Disconnect main-chain entries, tip first, until the tip equals the
given ancestor hash; fails if the walk runs out of data or fuel. -/
def disconnectTo : Nat → Chain → Nat → Option Chain
  | 0, _, _ => none
  | fuel+1, c, anc =>
    if c.tip = anc then some c
    else
      match tipEntry c, getBlock c c.tip, getUndo c c.tip with
      | some te, some blk, some und => disconnectTo fuel (disconnectBlock c te blk und) anc
      | _, _, _ => none

/-- Modelled from the spec §4.4: walk the competing branch back from the
candidate's parent to its common ancestor with the main chain, collecting
the branch's entries and stored blocks in forward (ancestor-to-tip)
order. -/
def findFork (c : Chain) : Nat → Nat → Option (Nat × List (ChainEntry × Block))
  | 0, _ => none
  | fuel+1, h =>
    if isMainChain c h then some (h, [])
    else
      match findEntry c h, getBlock c h with
      | some e, some blk =>
        match findFork c fuel e.prevBlock with
        | some al => some (al.1, al.2 ++ [(e, blk)])
        | none => none
      | _, _ => none

/-- Connect a list of (entry, block) pairs in forward height order,
fully validating each as it connects. -/
def connectAll : Chain → List (ChainEntry × Block) → Except Reason Chain
  | c, [] => .ok c
  | c, eb :: rest =>
    match connectBlock c eb.1 eb.2 with
    | .error r => .error r
    | .ok c' => connectAll c' rest

/-- Modelled from the spec §4.4 step 6: reorganization — walk both
branches back to their common ancestor, disconnect main-chain entries down
to the ancestor in reverse height order, emit the `reorganize` event, then
connect the new branch's entries up to and including the candidate in
forward height order, fully validating each as it connects.  A connect
failure surfaces the reason; per the §7 atomicity guarantee the caller
then keeps the pre-call state, which restores the prior tip exactly. -/
def reorg (c : Chain) (te : ChainEntry) (e : ChainEntry) (b : Block) :
    Except Reason Chain :=
  match findFork c (e.height + 1) b.header.prevBlock with
  | none => .error .internal_error
  | some ab =>
    match disconnectTo (te.height + 1) c ab.1 with
    | none => .error .internal_error
    | some c1 =>
      let c2 : Chain := { c1 with events := c1.events ++ [.reorganize e.hash] }
      match connectAll c2 ab.2 with
      | .error r => .error r
      | .ok c3 => connectBlock c3 e b

/-- Outcome of one block-acceptance attempt. -/
inductive AddResult where
  | tip (e : ChainEntry)
  | side (e : ChainEntry)
  | rejected (r : Reason)
deriving DecidableEq

/-- Modelled from the spec §4.4: the single entry point `add(block)`.
An unknown parent is rejected with `bad-prevblk`; a candidate extending
the best tip directly is fully validated and connected; a candidate on a
competing branch whose chainwork does not exceed the tip's is indexed and
stored but the UTXO set is untouched; a candidate whose branch chainwork
exceeds the tip's triggers reorganization.  Every rejection returns the
chain exactly as it was before the call. -/
def add (c : Chain) (b : Block) : AddResult × Chain :=
  match findEntry c b.header.prevBlock with
  | none => (.rejected .bad_prevblk, c)
  | some prev =>
    let e := buildEntry prev b
    if b.header.prevBlock = c.tip then
      match connectBlock c e b with
      | .ok c' => (.tip e, c')
      | .error r => (.rejected r, c)
    else
      match tipEntry c with
      | none => (.rejected .internal_error, c)
      | some te =>
        if e.chainwork ≤ te.chainwork then
          (.side e, { c with entries := insertEntry c.entries e
                             blocks := assocInsert c.blocks e.hash b })
        else
          match reorg c te e b with
          | .ok c' => (.tip e, c')
          | .error r => (.rejected r, c)

/-! ## Deployment state machine (spec §4.1) -/

/-- Modelled from the spec §4.1: the per-period soft-fork deployment
states. -/
inductive ThresholdState where
  | defined
  | started
  | lockedIn
  | active
  | failed
deriving DecidableEq

/-- Modelled from the spec: a soft-fork deployment's parameters — start
time and timeout. -/
structure Deployment where
  startTime : Nat
  timeout : Nat
deriving DecidableEq

/-- Modelled from the spec: the data of one retarget period the transition
rule consumes — the period's median time and the count of blocks within
the period that signal support. -/
structure PeriodInfo where
  medianTime : Nat
  signalCount : Nat
deriving DecidableEq

/-- Modelled from the spec §4.1: the transition rule, evaluated once per
retarget period: `DEFINED → STARTED` when the period's median time reaches
the start time; `STARTED → LOCKED_IN` when the signalling count meets the
threshold; `STARTED → FAILED` when the median time reaches the timeout,
unless this period already reaches the threshold; `LOCKED_IN → ACTIVE`
unconditionally one period later; `ACTIVE` and `FAILED` terminal. -/
def nextState (d : Deployment) (threshold : Nat) (p : PeriodInfo) :
    ThresholdState → ThresholdState
  | .defined => if d.startTime ≤ p.medianTime then .started else .defined
  | .started =>
    if threshold ≤ p.signalCount then .lockedIn
    else if d.timeout ≤ p.medianTime then .failed
    else .started
  | .lockedIn => .active
  | .active => .active
  | .failed => .failed

/-- Modelled from the spec §4.1: the state for a period boundary is
computed by walking back to the ancestor chain of period boundaries and
applying the transition rule iteratively from `DEFINED`. -/
def deploymentState (d : Deployment) (threshold : Nat)
    (periods : List PeriodInfo) : ThresholdState :=
  periods.foldl (fun s p => nextState d threshold p s) .defined

end Bcoin

/-! ## MemBlock (`lib/bcoin/memblock.js`) -/

namespace MemB

/-- The parsed block a successful `toBlock` produces; `parseBlock` and the
`Block` constructor are external collaborators, so the parse result is
opaque data. -/
abbrev ParsedBlock := List Nat

/-- The MemBlock object: the abstract-block header fields, the
always-true `memory` flag, the pre-extracted `coinbaseHeight`, and the raw
serialized buffer.  `raw = none` models the state after
`delete this.raw`. -/
structure MemBlock where
  version : Nat
  prevBlock : List Nat
  merkleRoot : List Nat
  ts : Nat
  bits : Nat
  nonce : Nat
  totalTX : Nat
  height : Int
  memory : Bool
  coinbaseHeight : Int
  raw : Option (List Nat)
deriving DecidableEq

/-- `MemBlock.prototype.getSize`: returns `this.raw.length`; with the raw
buffer deleted the read throws, modelled as `none`. -/
def MemBlock.getSize (mb : MemBlock) : Option Nat :=
  mb.raw.map List.length

/-- `MemBlock.prototype.toBlock`: parses the stored raw buffer via the
external `parseBlock` collaborator, deletes the raw property, and returns
the parsed block together with the mutated MemBlock.  A missing buffer or
a parse error throws, modelled as `none` (in which case the object is
unchanged, since the `delete` only runs after a successful parse). -/
def MemBlock.toBlock (parse : List Nat → Option ParsedBlock) (mb : MemBlock) :
    Option (ParsedBlock × MemBlock) :=
  match mb.raw with
  | none => none
  | some buf =>
    match parse buf with
    | none => none
    | some data => some (data, { mb with raw := none })

/-- `MemBlock.prototype.getCoinbaseHeight`: returns the pre-extracted
coinbase height. -/
def MemBlock.getCoinbaseHeight (mb : MemBlock) : Int :=
  mb.coinbaseHeight

end MemB

/-! ## JavaScript value model for `MemBlock.isMemBlock` -/

namespace JsEnv

/-- A JavaScript value, at the granularity `isMemBlock` observes: the
falsy primitives, numbers and strings, and objects.  For an object we
record whether its `toBlock` property (own or inherited) is a function,
and — to express that the check never inspects the prototype chain's
identity — whether the object actually is a `MemBlock` instance. -/
inductive JsVal where
  | vundef
  | vnull
  | vbool (b : Bool)
  | vnum (n : Int)
  | vstr (s : String)
  | vobj (toBlockIsFn : Bool) (isMemBlockInstance : Bool)
deriving DecidableEq

/-- JavaScript truthiness. -/
def truthy : JsVal → Bool
  | .vundef => false
  | .vnull => false
  | .vbool b => b
  | .vnum n => n ≠ 0
  | .vstr s => s ≠ ""
  | .vobj _ _ => true

/-- Whether `typeof obj.toBlock === 'function'` holds: property access on
a primitive finds no `toBlock`, on an object it reads the recorded flag. -/
def toBlockIsFunction : JsVal → Bool
  | .vobj f _ => f
  | _ => false

/-- `MemBlock.isMemBlock(obj)`: `return obj && typeof obj.toBlock ===
'function'` — short-circuit `&&` yields the falsy operand itself when
`obj` is falsy, and the boolean comparison result otherwise. -/
def isMemBlock (obj : JsVal) : JsVal :=
  if truthy obj then .vbool (toBlockIsFunction obj) else obj

end JsEnv

namespace Bcoin

/-! ## Invariants (claim C4) -/

/-- The aggregate value and coin count match the UTXO view exactly, and
the view's keys are distinct. -/
def vcOk (u : UTXO) (st : ChainState) : Prop :=
  nodupKeys u ∧ st.value = utxoValue u ∧ st.coin = u.length

/-- The entry sits one height above its parent whenever the parent is
indexed. -/
def entryParentOk (c : Chain) (x : ChainEntry) : Prop :=
  match findEntry c x.prevBlock with
  | some p => x.height = p.height + 1
  | none => True

instance (c : Chain) (x : ChainEntry) : Decidable (entryParentOk c x) := by
  unfold entryParentOk
  cases findEntry c x.prevBlock with
  | none => exact isTrue trivial
  | some p => exact instDecidableEqNat x.height (p.height + 1)

/-- Modelled from the spec §3: well-formedness of the persistent chain —
distinct UTXO keys, an indexed tip, a fully indexed main-chain walk
(every lookup along the walk from the tip succeeds, so the walk has
exactly tip-height + 1 entries), and every indexed entry sits one height
above its indexed parent. -/
def wf (c : Chain) : Prop :=
  nodupKeys c.utxo ∧
  (tipEntry c).isSome = true ∧
  (mainPath c).length = tipHeight c + 1 ∧
  ∀ x ∈ c.entries, entryParentOk c x

instance (c : Chain) : Decidable (wf c) := by
  unfold wf
  infer_instance

/-- Modelled from the spec §3: the aggregate state exactly tracks the
live UTXO set and the main chain — recorded value is the sum of unspent
coin values, recorded coin count is the cardinality of the UTXO set,
recorded transaction count is the number of transactions in main-chain
blocks. -/
def stateOk (c : Chain) : Prop :=
  c.state.value = utxoValue c.utxo ∧
  c.state.coin = c.utxo.length ∧
  c.state.tx = mainTxs c

instance (c : Chain) : Decidable (stateOk c) := by
  unfold stateOk
  infer_instance

/-- A branch list is correctly chained: walking it forward from `start`,
each entry's parent is the previous hash, each entry and block is the one
stored in the chain, and the walk ends at `stop`. -/
def chainOk (c : Chain) : Nat → List (ChainEntry × Block) → Nat → Prop
  | start, [], stop => start = stop
  | start, eb :: rest, stop =>
    eb.1.prevBlock = start ∧ findEntry c eb.1.hash = some eb.1 ∧
    getBlock c eb.1.hash = some eb.2 ∧ chainOk c eb.1.hash rest stop

end Bcoin

namespace Bcoin

/-! ### Association-list lemmas -/

theorem lookupCoin_eq_none_of_not_memKey {u : UTXO} {p : Outpoint}
    (h : p ∉ u.map Prod.fst) : lookupCoin u p = none := by
  induction u with
  | nil => rfl
  | cons kv rest ih =>
    simp only [List.map_cons, List.mem_cons, not_or] at h
    have hne : kv.1 ≠ p := fun he => h.1 he.symm
    simp [lookupCoin, hne, ih h.2]

theorem memKey_of_lookupCoin_eq_some {u : UTXO} {p : Outpoint} {c : Coin}
    (h : lookupCoin u p = some c) : p ∈ u.map Prod.fst := by
  induction u with
  | nil => simp [lookupCoin] at h
  | cons kv rest ih =>
    by_cases he : kv.1 = p
    · simp [he]
    · simp only [lookupCoin, if_neg he] at h
      simp only [List.map_cons, List.mem_cons]
      exact Or.inr (ih h)

theorem eraseCoin_cons (kv : Outpoint × Coin) (rest : UTXO) (p : Outpoint) :
    eraseCoin (kv :: rest) p =
      if kv.1 = p then eraseCoin rest p else kv :: eraseCoin rest p := by
  by_cases he : kv.1 = p <;> simp [eraseCoin, List.filter_cons, he]

theorem eraseCoin_of_lookup_none {u : UTXO} {p : Outpoint}
    (h : lookupCoin u p = none) : eraseCoin u p = u := by
  induction u with
  | nil => rfl
  | cons kv rest ih =>
    by_cases he : kv.1 = p
    · simp [lookupCoin, he] at h
    · simp only [lookupCoin, if_neg he] at h
      rw [eraseCoin_cons, if_neg he, ih h]

theorem nodupKeys_eraseCoin {u : UTXO} (p : Outpoint)
    (h : nodupKeys u) : nodupKeys (eraseCoin u p) := by
  unfold nodupKeys eraseCoin
  exact (List.Sublist.map Prod.fst (List.filter_sublist u)).nodup h

theorem lookupCoin_eraseCoin_self (u : UTXO) (p : Outpoint) :
    lookupCoin (eraseCoin u p) p = none := by
  apply lookupCoin_eq_none_of_not_memKey
  intro hmem
  rcases List.mem_map.mp hmem with ⟨kv, hkv, hfst⟩
  have := (List.mem_filter.mp hkv).2
  simp only [ne_eq, decide_eq_true_eq] at this
  exact this hfst

theorem lookupCoin_eraseCoin_ne (u : UTXO) (p q : Outpoint) (hne : q ≠ p) :
    lookupCoin (eraseCoin u p) q = lookupCoin u q := by
  induction u with
  | nil => rfl
  | cons kv rest ih =>
    rw [eraseCoin_cons]
    by_cases he : kv.1 = p
    · rw [if_pos he, ih]
      have hq : ¬kv.1 = q := fun h => hne (by rw [← h, he])
      simp [lookupCoin, hq]
    · rw [if_neg he]
      by_cases hq : kv.1 = q
      · simp [lookupCoin, hq]
      · simp [lookupCoin, hq, ih]

theorem nodupKeys_insertCoin {u : UTXO} (p : Outpoint) (c : Coin)
    (h : nodupKeys u) : nodupKeys (insertCoin u p c) := by
  unfold nodupKeys insertCoin
  simp only [List.map_cons, List.nodup_cons]
  refine ⟨?_, nodupKeys_eraseCoin p h⟩
  intro hmem
  rcases List.mem_map.mp hmem with ⟨kv, hkv, hfst⟩
  have := (List.mem_filter.mp hkv).2
  simp only [ne_eq, decide_eq_true_eq] at this
  exact this hfst

theorem lookupCoin_insertCoin_self (u : UTXO) (p : Outpoint) (c : Coin) :
    lookupCoin (insertCoin u p c) p = some c := by
  simp [insertCoin, lookupCoin]

theorem lookupCoin_insertCoin_ne (u : UTXO) (p q : Outpoint) (c : Coin) (hne : q ≠ p) :
    lookupCoin (insertCoin u p c) q = lookupCoin u q := by
  simp only [insertCoin, lookupCoin, if_neg (fun h : p = q => hne h.symm)]
  exact lookupCoin_eraseCoin_ne u p q hne

/-- On a key-distinct UTXO set, a successful lookup splits the total value. -/
theorem utxoValue_eraseCoin {u : UTXO} {p : Outpoint} {c : Coin}
    (hnd : nodupKeys u) (h : lookupCoin u p = some c) :
    utxoValue u = c.value + utxoValue (eraseCoin u p) := by
  induction u with
  | nil => simp [lookupCoin] at h
  | cons kv rest ih =>
    simp only [nodupKeys, List.map_cons, List.nodup_cons] at hnd
    by_cases he : kv.1 = p
    · simp only [lookupCoin, if_pos he] at h
      have hrest : lookupCoin rest p = none := by
        apply lookupCoin_eq_none_of_not_memKey
        rw [← he]; exact hnd.1
      rw [eraseCoin_cons, if_pos he, eraseCoin_of_lookup_none hrest]
      have hc : kv.2 = c := Option.some.inj h
      simp [utxoValue, hc]
    · simp only [lookupCoin, if_neg he] at h
      have := ih hnd.2 h
      rw [eraseCoin_cons, if_neg he]
      simp only [utxoValue]
      omega

/-- On a key-distinct UTXO set, a successful lookup splits the cardinality. -/
theorem length_eraseCoin {u : UTXO} {p : Outpoint} {c : Coin}
    (hnd : nodupKeys u) (h : lookupCoin u p = some c) :
    u.length = (eraseCoin u p).length + 1 := by
  induction u with
  | nil => simp [lookupCoin] at h
  | cons kv rest ih =>
    simp only [nodupKeys, List.map_cons, List.nodup_cons] at hnd
    by_cases he : kv.1 = p
    · have hrest : lookupCoin rest p = none := by
        apply lookupCoin_eq_none_of_not_memKey
        rw [← he]; exact hnd.1
      rw [eraseCoin_cons, if_pos he, eraseCoin_of_lookup_none hrest]
      simp
    · simp only [lookupCoin, if_neg he] at h
      have := ih hnd.2 h
      rw [eraseCoin_cons, if_neg he]
      simp only [List.length_cons]
      omega

end Bcoin

/-! ## Claim C9: MemBlock.toBlock consumes the raw buffer -/

/-- C9: `MemBlock.toBlock` parses the stored raw buffer into a full block
and deletes the raw property, leaving every other field (header fields,
`coinbaseHeight`, the `memory` flag) unchanged; consequently `toBlock` can
succeed at most once per MemBlock instance — after one call the raw data
is gone, and `getSize` and a second `toBlock` no longer have the buffer
they read. -/
theorem c9_toBlock_consumes_raw (parse : List Nat → Option MemB.ParsedBlock)
    (mb : MemB.MemBlock) (d : MemB.ParsedBlock) (mb' : MemB.MemBlock)
    (h : MemB.MemBlock.toBlock parse mb = some (d, mb')) :
    mb'.raw = none ∧
    (∃ buf, mb.raw = some buf ∧ parse buf = some d) ∧
    mb'.version = mb.version ∧ mb'.prevBlock = mb.prevBlock ∧
    mb'.merkleRoot = mb.merkleRoot ∧ mb'.ts = mb.ts ∧ mb'.bits = mb.bits ∧
    mb'.nonce = mb.nonce ∧ mb'.totalTX = mb.totalTX ∧
    mb'.height = mb.height ∧ mb'.memory = mb.memory ∧
    mb'.coinbaseHeight = mb.coinbaseHeight ∧
    MemB.MemBlock.toBlock parse mb' = none ∧
    MemB.MemBlock.getSize mb' = none := by
  cases hraw : mb.raw with
  | none => simp [MemB.MemBlock.toBlock, hraw] at h
  | some buf =>
    cases hp : parse buf with
    | none => simp [MemB.MemBlock.toBlock, hraw, hp] at h
    | some data =>
      simp only [MemB.MemBlock.toBlock, hraw, hp, Option.some.injEq,
        Prod.mk.injEq] at h
      obtain ⟨hd, hmb⟩ := h
      subst hd
      subst hmb
      refine ⟨rfl, ⟨buf, rfl, hp⟩, rfl, rfl, rfl, rfl, rfl, rfl, rfl, rfl,
        rfl, rfl, rfl, rfl⟩

/-- Witness for C9 at a concrete MemBlock and the identity-style parser. -/
theorem c9_toBlock_consumes_raw_witness :
    (MemB.MemBlock.toBlock some
        ⟨1, [2], [3], 4, 5, 6, 7, 8, true, 9, some [7, 7]⟩ =
      some ([7, 7], ⟨1, [2], [3], 4, 5, 6, 7, 8, true, 9, none⟩)) ∧
    ((⟨1, [2], [3], 4, 5, 6, 7, 8, true, 9, none⟩ : MemB.MemBlock).raw = none ∧
      MemB.MemBlock.toBlock some
        (⟨1, [2], [3], 4, 5, 6, 7, 8, true, 9, none⟩ : MemB.MemBlock) = none) := by
  refine ⟨rfl, ?_⟩
  have h := c9_toBlock_consumes_raw some
    ⟨1, [2], [3], 4, 5, 6, 7, 8, true, 9, some [7, 7]⟩ [7, 7]
    ⟨1, [2], [3], 4, 5, 6, 7, 8, true, 9, none⟩ rfl
  exact ⟨h.1, h.2.2.2.2.2.2.2.2.2.2.2.2.1⟩

/-! ## Claim C10: MemBlock.isMemBlock duck-types on toBlock -/

/-- C10: `MemBlock.isMemBlock(obj)` returns `true` exactly when `obj` is
truthy and `obj.toBlock` is a function; in particular it returns `true`
for any object carrying a function-valued `toBlock` even when that object
is not a MemBlock instance, and its result never depends on the prototype
chain identity. -/
theorem c10_isMemBlock_duck_typing :
    (∀ v : JsEnv.JsVal,
      JsEnv.isMemBlock v = .vbool true ↔
        (JsEnv.truthy v = true ∧ JsEnv.toBlockIsFunction v = true)) ∧
    (∀ f i1 i2 : Bool,
      JsEnv.isMemBlock (.vobj f i1) = JsEnv.isMemBlock (.vobj f i2)) ∧
    JsEnv.isMemBlock (.vobj true false) = .vbool true := by
  refine ⟨?_, ?_, rfl⟩
  · intro v
    cases v with
    | vundef => simp [JsEnv.isMemBlock, JsEnv.truthy]
    | vnull => simp [JsEnv.isMemBlock, JsEnv.truthy]
    | vbool b =>
      cases b <;> simp [JsEnv.isMemBlock, JsEnv.truthy, JsEnv.toBlockIsFunction]
    | vnum n =>
      by_cases hn : n = 0 <;>
        simp [JsEnv.isMemBlock, JsEnv.truthy, JsEnv.toBlockIsFunction, hn]
    | vstr s =>
      by_cases hs : s = "" <;>
        simp [JsEnv.isMemBlock, JsEnv.truthy, JsEnv.toBlockIsFunction, hs]
    | vobj f i =>
      cases f <;> simp [JsEnv.isMemBlock, JsEnv.truthy, JsEnv.toBlockIsFunction]
  · intro f i1 i2; rfl

/-- Witness for C10: a non-MemBlock object with a function-valued
`toBlock` satisfies the characterization. -/
theorem c10_isMemBlock_duck_typing_witness :
    JsEnv.isMemBlock (.vobj true false) = .vbool true ∧
    JsEnv.isMemBlock (.vnull) = .vnull :=
  ⟨(c10_isMemBlock_duck_typing.1 (.vobj true false)).mpr ⟨rfl, rfl⟩, rfl⟩

/-! ## Claim C6: the deployment state machine -/

/-- C6: per soft-fork deployment, the per-period state advances through
DEFINED → STARTED → LOCKED_IN → ACTIVE in that order, at most one
transition per retarget period (each period applies the rule once):
STARTED once the period's median time reaches the start time, LOCKED_IN
once the signalling count meets the threshold, ACTIVE unconditionally one
period after LOCKED_IN; FAILED is reachable only from STARTED, and ACTIVE
and FAILED are terminal. -/
theorem c6_deployment_state_machine (d : Bcoin.Deployment) (threshold : Nat)
    (p : Bcoin.PeriodInfo) (s : Bcoin.ThresholdState) :
    (Bcoin.nextState d threshold p s = s ∨
      (s = .defined ∧ Bcoin.nextState d threshold p s = .started) ∨
      (s = .started ∧ Bcoin.nextState d threshold p s = .lockedIn) ∨
      (s = .started ∧ Bcoin.nextState d threshold p s = .failed) ∨
      (s = .lockedIn ∧ Bcoin.nextState d threshold p s = .active)) ∧
    (Bcoin.nextState d threshold p .defined = .started ↔
      d.startTime ≤ p.medianTime) ∧
    (Bcoin.nextState d threshold p .started = .lockedIn ↔
      threshold ≤ p.signalCount) ∧
    Bcoin.nextState d threshold p .lockedIn = .active ∧
    Bcoin.nextState d threshold p .active = .active ∧
    Bcoin.nextState d threshold p .failed = .failed ∧
    (Bcoin.nextState d threshold p s = .failed → s = .started ∨ s = .failed) ∧
    (∀ periods : List Bcoin.PeriodInfo,
      Bcoin.deploymentState d threshold (periods ++ [p]) =
        Bcoin.nextState d threshold p (Bcoin.deploymentState d threshold periods)) := by
  refine ⟨?_, ?_, ?_, rfl, rfl, rfl, ?_, ?_⟩
  · cases s with
    | defined =>
      by_cases h1 : d.startTime ≤ p.medianTime
      · exact Or.inr (Or.inl ⟨rfl, by simp [Bcoin.nextState, h1]⟩)
      · exact Or.inl (by simp [Bcoin.nextState, h1])
    | started =>
      by_cases h1 : threshold ≤ p.signalCount
      · exact Or.inr (Or.inr (Or.inl ⟨rfl, by simp [Bcoin.nextState, h1]⟩))
      · by_cases h2 : d.timeout ≤ p.medianTime
        · exact Or.inr (Or.inr (Or.inr (Or.inl ⟨rfl,
            by simp [Bcoin.nextState, h1, h2]⟩)))
        · exact Or.inl (by simp [Bcoin.nextState, h1, h2])
    | lockedIn => exact Or.inr (Or.inr (Or.inr (Or.inr ⟨rfl, rfl⟩)))
    | active => exact Or.inl rfl
    | failed => exact Or.inl rfl
  · unfold Bcoin.nextState
    by_cases h1 : d.startTime ≤ p.medianTime <;> simp [h1]
  · unfold Bcoin.nextState
    by_cases h1 : threshold ≤ p.signalCount
    · simp [h1]
    · by_cases h2 : d.timeout ≤ p.medianTime <;> simp [h1, h2]
  · intro hf
    cases s with
    | defined =>
      unfold Bcoin.nextState at hf
      by_cases h1 : d.startTime ≤ p.medianTime <;> simp [h1] at hf
    | started => exact Or.inl rfl
    | lockedIn => exact absurd hf (by simp [Bcoin.nextState])
    | active => exact absurd hf (by simp [Bcoin.nextState])
    | failed => exact Or.inr rfl
  · intro periods
    unfold Bcoin.deploymentState
    rw [List.foldl_append]
    rfl

/-- Witness for C6: a started deployment locks in once the threshold is
met in a period. -/
theorem c6_deployment_state_machine_witness :
    Bcoin.nextState ⟨10, 20⟩ 95 ⟨15, 95⟩ .started = .lockedIn ∧
    Bcoin.nextState ⟨10, 20⟩ 95 ⟨15, 95⟩ .active = .active :=
  ⟨((c6_deployment_state_machine ⟨10, 20⟩ 95 ⟨15, 95⟩ .started).2.2.1).mpr
      (by decide),
    (c6_deployment_state_machine ⟨10, 20⟩ 95 ⟨15, 95⟩ .started).2.2.2.2.1⟩

/-! ## Helper lemmas about block checks and `add` -/

namespace Bcoin

theorem witnessCheck_none_of_no_witness (segwit : Bool) (b : Block)
    (h : hasWitness b = false) : witnessCheck segwit b = none := by
  unfold witnessCheck
  cases segwit <;> simp [h]

end Bcoin

/-! ## Claim C3: consensus rejections leave all persistent state untouched -/

/-- C3: every block rejected by `add` leaves all persistent chain state —
the UTXO set, the chain index and tip, and the aggregate state — exactly
as it was before the call (the returned chain is the pre-call chain); in
particular a block whose weight exceeds the fixed weight limit on the
connect path is rejected with `bad-blk-weight` and the state is
unchanged. -/
theorem c3_rejection_leaves_state_untouched :
    (∀ (c : Bcoin.Chain) (b : Bcoin.Block) (r : Bcoin.Reason) (c' : Bcoin.Chain),
      Bcoin.add c b = (.rejected r, c') → c' = c) ∧
    (∀ (c : Bcoin.Chain) (b : Bcoin.Block) (te : Bcoin.ChainEntry),
      Bcoin.tipEntry c = some te →
      b.header.prevBlock = c.tip →
      Bcoin.hasWitness b = false →
      Bcoin.blockBaseSize b ≤ Bcoin.MAX_BLOCK_SIZE →
      Bcoin.blockWeight b > Bcoin.MAX_BLOCK_WEIGHT →
      Bcoin.add c b = (.rejected .bad_blk_weight, c)) := by
  constructor
  · intro c b r c' h
    cases hfe : Bcoin.findEntry c b.header.prevBlock with
    | none =>
      simp only [Bcoin.add, hfe] at h
      exact (congrArg Prod.snd h).symm
    | some prev =>
      simp only [Bcoin.add, hfe] at h
      by_cases hp : b.header.prevBlock = c.tip
      · rw [if_pos hp] at h
        cases hcb : Bcoin.connectBlock c (Bcoin.buildEntry prev b) b with
        | ok c1 =>
          simp only [hcb] at h
          exact absurd (congrArg Prod.fst h) (by simp)
        | error r1 =>
          simp only [hcb] at h
          exact (congrArg Prod.snd h).symm
      · rw [if_neg hp] at h
        cases hte : Bcoin.tipEntry c with
        | none =>
          simp only [hte] at h
          exact (congrArg Prod.snd h).symm
        | some te =>
          simp only [hte] at h
          by_cases hw : (Bcoin.buildEntry prev b).chainwork ≤ te.chainwork
          · rw [if_pos hw] at h
            exact absurd (congrArg Prod.fst h) (by simp)
          · rw [if_neg hw] at h
            cases hrg : Bcoin.reorg c te (Bcoin.buildEntry prev b) b with
            | ok c1 =>
              simp only [hrg] at h
              exact absurd (congrArg Prod.fst h) (by simp)
            | error r1 =>
              simp only [hrg] at h
              exact (congrArg Prod.snd h).symm
  · intro c b te hte hp hwit hsize hweight
    have hfe : Bcoin.findEntry c b.header.prevBlock = some te := by
      rw [hp]; exact hte
    have hcheck : Bcoin.checkBlock c.segwit b = some .bad_blk_weight := by
      unfold Bcoin.checkBlock
      rw [Bcoin.witnessCheck_none_of_no_witness c.segwit b hwit]
      rw [if_neg (by omega), if_pos hweight]
    have hcb : Bcoin.connectBlock c (Bcoin.buildEntry te b) b =
        .error .bad_blk_weight := by
      unfold Bcoin.connectBlock
      rw [hcheck]
    simp only [Bcoin.add, hfe]
    rw [if_pos hp]
    simp only [hcb]

/-- Witness for C3: a concrete overweight block on the connect path is
rejected with `bad-blk-weight` and the chain value is returned
unchanged. -/
theorem c3_rejection_leaves_state_untouched_witness :
    Bcoin.add
        { entries := [⟨1, 0, 0, 1, 0, 0, 1⟩], blocks := [], undos := []
          tip := 1, utxo := [], state := ⟨0, 0, 0⟩, segwit := false
          events := [] }
        { header := ⟨2, 1, 1, 0, 0⟩, txs := [⟨5, 5, [], [], 999000, 500000⟩] } =
      (.rejected .bad_blk_weight,
        { entries := [⟨1, 0, 0, 1, 0, 0, 1⟩], blocks := [], undos := []
          tip := 1, utxo := [], state := ⟨0, 0, 0⟩, segwit := false
          events := [] }) :=
  c3_rejection_leaves_state_untouched.2
    { entries := [⟨1, 0, 0, 1, 0, 0, 1⟩], blocks := [], undos := []
      tip := 1, utxo := [], state := ⟨0, 0, 0⟩, segwit := false
      events := [] }
    { header := ⟨2, 1, 1, 0, 0⟩, txs := [⟨5, 5, [], [], 999000, 500000⟩] }
    ⟨1, 0, 0, 1, 0, 0, 1⟩ rfl rfl rfl (by decide) (by decide)

namespace Bcoin

theorem add_rejects_of_checkBlock (c : Chain) (b : Block) (te : ChainEntry)
    (r : Reason) (hte : tipEntry c = some te) (hp : b.header.prevBlock = c.tip)
    (hcheck : checkBlock c.segwit b = some r) :
    add c b = (.rejected r, c) := by
  have hfe : findEntry c b.header.prevBlock = some te := by rw [hp]; exact hte
  have hcb : connectBlock c (buildEntry te b) b = .error r := by
    unfold connectBlock
    rw [hcheck]
  simp only [add, hfe]
  rw [if_pos hp]
  simp only [hcb]

theorem add_rejects_of_connectTxs (c : Chain) (b : Block) (te : ChainEntry)
    (r : Reason) (hte : tipEntry c = some te) (hp : b.header.prevBlock = c.tip)
    (hcheck : checkBlock c.segwit b = none)
    (htxs : connectTxs (te.height + 1) c.utxo c.state b.txs = .error r) :
    add c b = (.rejected r, c) := by
  have hfe : findEntry c b.header.prevBlock = some te := by rw [hp]; exact hte
  have hcb : connectBlock c (buildEntry te b) b = .error r := by
    unfold connectBlock
    rw [hcheck]
    simp only [buildEntry] at htxs ⊢
    rw [htxs]
  simp only [add, hfe]
  rw [if_pos hp]
  simp only [hcb]

end Bcoin

/-! ## Claim C7: witness commitment validation -/

/-- C7: once segwit-equivalent rules are active, a witness-carrying block
whose coinbase witness nonce stack is not exactly one 32-byte element is
rejected with `bad-witness-nonce-size`; with a well-formed nonce stack, a
coinbase commitment payload differing from the witness Merkle root
combined with the nonce is rejected with `bad-witness-merkle-match`. -/
theorem c7_witness_commitment_checks :
    (∀ (c : Bcoin.Chain) (b : Bcoin.Block) (te : Bcoin.ChainEntry)
        (cb : Bcoin.Tx) (rest : List Bcoin.Tx) (inp : Bcoin.TxIn)
        (irest : List Bcoin.TxIn) (payload : Nat),
      Bcoin.tipEntry c = some te →
      b.header.prevBlock = c.tip →
      c.segwit = true →
      Bcoin.hasWitness b = true →
      b.txs = cb :: rest →
      Bcoin.commitPayload cb = some payload →
      cb.inputs = inp :: irest →
      (¬ ∃ nonce, inp.witness = [nonce] ∧ nonce.length = 32) →
      Bcoin.add c b = (.rejected .bad_witness_nonce_size, c)) ∧
    (∀ (c : Bcoin.Chain) (b : Bcoin.Block) (te : Bcoin.ChainEntry)
        (cb : Bcoin.Tx) (rest : List Bcoin.Tx) (inp : Bcoin.TxIn)
        (irest : List Bcoin.TxIn) (payload : Nat) (nonce : List Nat),
      Bcoin.tipEntry c = some te →
      b.header.prevBlock = c.tip →
      c.segwit = true →
      Bcoin.hasWitness b = true →
      b.txs = cb :: rest →
      Bcoin.commitPayload cb = some payload →
      cb.inputs = inp :: irest →
      inp.witness = [nonce] →
      nonce.length = 32 →
      payload ≠ Bcoin.commitHash (Bcoin.witnessRoot b) nonce →
      Bcoin.add c b = (.rejected .bad_witness_merkle_match, c)) := by
  constructor
  · intro c b te cb rest inp irest payload hte hp hsgw hw htxs hcp hinp hbad
    apply Bcoin.add_rejects_of_checkBlock c b te _ hte hp
    rw [hsgw]
    have hwc : Bcoin.witnessCheck true b = some .bad_witness_nonce_size := by
      unfold Bcoin.witnessCheck
      simp only [Bool.not_true, Bool.false_eq_true, if_false, hw, htxs, hcp, hinp]
      rcases hiw : inp.witness with _ | ⟨nonce, _ | ⟨n2, ns⟩⟩
      · rfl
      · have h32 : nonce.length ≠ 32 := fun h => hbad ⟨nonce, hiw, h⟩
        show (if nonce.length ≠ 32 then some Bcoin.Reason.bad_witness_nonce_size
          else if payload ≠ Bcoin.commitHash (Bcoin.witnessRoot b) nonce then
            some Bcoin.Reason.bad_witness_merkle_match
          else none) = some Bcoin.Reason.bad_witness_nonce_size
        rw [if_pos h32]
      · rfl
    unfold Bcoin.checkBlock
    simp only [hwc]
  · intro c b te cb rest inp irest payload nonce hte hp hsgw hw htxs hcp hinp
      hiw h32 hne
    apply Bcoin.add_rejects_of_checkBlock c b te _ hte hp
    rw [hsgw]
    have hwc : Bcoin.witnessCheck true b = some .bad_witness_merkle_match := by
      unfold Bcoin.witnessCheck
      simp only [Bool.not_true, Bool.false_eq_true, if_false, hw, htxs, hcp, hinp,
        hiw]
      show (if nonce.length ≠ 32 then some Bcoin.Reason.bad_witness_nonce_size
        else if payload ≠ Bcoin.commitHash (Bcoin.witnessRoot b) nonce then
          some Bcoin.Reason.bad_witness_merkle_match
        else none) = some Bcoin.Reason.bad_witness_merkle_match
      rw [if_neg (fun hc => hc h32), if_pos hne]
    unfold Bcoin.checkBlock
    simp only [hwc]

/-- Witness for C7: concrete witness-carrying blocks with a 2-byte nonce
stack element and with a wrong commitment payload are rejected with the
corresponding reasons. -/
theorem c7_witness_commitment_checks_witness :
    Bcoin.add
        { entries := [⟨1, 0, 0, 1, 0, 0, 1⟩], blocks := [], undos := []
          tip := 1, utxo := [], state := ⟨0, 0, 0⟩, segwit := true
          events := [] }
        { header := ⟨2, 1, 1, 0, 0⟩
          txs := [⟨5, 5, [⟨⟨0, 0⟩, [[1, 2]]⟩], [⟨0, some 9⟩], 100, 10⟩] } =
      (.rejected .bad_witness_nonce_size,
        { entries := [⟨1, 0, 0, 1, 0, 0, 1⟩], blocks := [], undos := []
          tip := 1, utxo := [], state := ⟨0, 0, 0⟩, segwit := true
          events := [] }) ∧
    Bcoin.add
        { entries := [⟨1, 0, 0, 1, 0, 0, 1⟩], blocks := [], undos := []
          tip := 1, utxo := [], state := ⟨0, 0, 0⟩, segwit := true
          events := [] }
        { header := ⟨2, 1, 1, 0, 0⟩
          txs := [⟨5, 5, [⟨⟨0, 0⟩, [List.replicate 32 0]⟩],
            [⟨0, some 9⟩], 100, 10⟩] } =
      (.rejected .bad_witness_merkle_match,
        { entries := [⟨1, 0, 0, 1, 0, 0, 1⟩], blocks := [], undos := []
          tip := 1, utxo := [], state := ⟨0, 0, 0⟩, segwit := true
          events := [] }) := by
  constructor
  · apply c7_witness_commitment_checks.1
    · rfl
    · rfl
    · rfl
    · rfl
    · rfl
    · rfl
    · rfl
    · rintro ⟨n, hn, h32⟩
      injection hn with h1 h2
      rw [← h1] at h32
      exact absurd h32 (by decide)
  · apply c7_witness_commitment_checks.2
    · rfl
    · rfl
    · rfl
    · rfl
    · rfl
    · rfl
    · rfl
    · rfl
    · rfl
    · decide

namespace Bcoin

/-! ### Lemmas about sequential input/transaction processing -/

theorem checkInput_ok_utxo (h : Nat) (u : UTXO) (st : ChainState) (undo : Undo)
    (inp : TxIn) (r : UTXO × ChainState × Undo)
    (hok : checkInput h u st undo inp = .ok r) :
    r.1 = eraseCoin u inp.prevout := by
  unfold checkInput at hok
  cases hl : lookupCoin u inp.prevout with
  | none => exact absurd hok (by simp [hl])
  | some coin =>
    simp only [hl] at hok
    by_cases hc : coin.coinbase = true ∧ h < coin.height + COINBASE_MATURITY
    · rw [if_pos hc] at hok
      exact absurd hok (by simp)
    · rw [if_neg hc] at hok
      simp only [Except.ok.injEq] at hok
      rw [← hok]
      rfl

theorem lookupCoin_eraseCoin_none (u : UTXO) (q p : Outpoint)
    (h : lookupCoin u p = none) : lookupCoin (eraseCoin u q) p = none := by
  by_cases hpq : p = q
  · rw [hpq]; exact lookupCoin_eraseCoin_self u q
  · rw [lookupCoin_eraseCoin_ne u q p hpq]; exact h

theorem spendAll_lookup_none (h : Nat) (p : Outpoint) :
    ∀ (inps : List TxIn) (u : UTXO) (st : ChainState) (undo : Undo)
      (res : UTXO × ChainState × Undo),
      lookupCoin u p = none → spendAll h u st undo inps = .ok res →
      lookupCoin res.1 p = none := by
  intro inps
  induction inps with
  | nil =>
    intro u st undo res hl hok
    simp only [spendAll, Except.ok.injEq] at hok
    rw [← hok]
    exact hl
  | cons i rest ih =>
    intro u st undo res hl hok
    simp only [spendAll] at hok
    cases hci : checkInput h u st undo i with
    | error r => exact absurd hok (by simp [hci])
    | ok r =>
      obtain ⟨u1, st1, un1⟩ := r
      simp only [hci] at hok
      have hu1 : u1 = eraseCoin u i.prevout :=
        checkInput_ok_utxo h u st undo i (u1, st1, un1) hci
      exact ih u1 st1 un1 res
        (by rw [hu1]; exact lookupCoin_eraseCoin_none u i.prevout p hl) hok

theorem addOutputsFrom_lookup_none (txid h : Nat) (cbf : Bool) (p : Outpoint)
    (hne : txid ≠ p.txid) :
    ∀ (outs : List TxOut) (j : Nat) (u : UTXO) (st : ChainState),
      lookupCoin u p = none →
      lookupCoin (addOutputsFrom txid h cbf j u st outs).1 p = none := by
  intro outs
  induction outs with
  | nil => intro j u st hl; exact hl
  | cons o rest ih =>
    intro j u st hl
    simp only [addOutputsFrom]
    apply ih
    have hkey : p ≠ (⟨txid, j⟩ : Outpoint) := by
      intro he
      exact hne (by rw [he])
    unfold addCoin
    cases hl0 : lookupCoin u p
    · cases hlk : lookupCoin u (⟨txid, j⟩ : Outpoint) <;>
        simp only [lookupCoin_insertCoin_ne u _ p _ hkey] <;> exact hl
    · rw [hl0] at hl; exact absurd hl (by simp)

theorem connectOne_lookup_none (h : Nat) (u : UTXO) (st : ChainState) (t : Tx)
    (res : UTXO × ChainState × Undo) (p : Outpoint)
    (hne : t.txid ≠ p.txid) (hl : lookupCoin u p = none)
    (hok : connectOne h u st t = .ok res) : lookupCoin res.1 p = none := by
  unfold connectOne at hok
  cases hsa : spendAll h u st [] t.inputs with
  | error r => exact absurd hok (by simp [hsa])
  | ok r =>
    obtain ⟨u1, st1, un1⟩ := r
    simp only [hsa, Except.ok.injEq] at hok
    have h1 : lookupCoin u1 p = none :=
      spendAll_lookup_none h p t.inputs u st [] (u1, st1, un1) hl hsa
    rw [← hok]
    exact addOutputsFrom_lookup_none t.txid h false p hne t.outputs 0 u1 st1 h1

theorem connectRest_lookup_none (h : Nat) (p : Outpoint) :
    ∀ (txs : List Tx) (u : UTXO) (st : ChainState) (acc : List Undo)
      (res : UTXO × ChainState × List Undo),
      (∀ t ∈ txs, t.txid ≠ p.txid) → lookupCoin u p = none →
      connectRest h u st acc txs = .ok res → lookupCoin res.1 p = none := by
  intro txs
  induction txs with
  | nil =>
    intro u st acc res _ hl hok
    simp only [connectRest, Except.ok.injEq] at hok
    rw [← hok]
    exact hl
  | cons t rest ih =>
    intro u st acc res hne hl hok
    simp only [connectRest] at hok
    cases hco : connectOne h u st t with
    | error r => exact absurd hok (by simp [hco])
    | ok r =>
      obtain ⟨u1, st1, un1⟩ := r
      simp only [hco] at hok
      have h1 : lookupCoin u1 p = none :=
        connectOne_lookup_none h u st t (u1, st1, un1) p
          (hne t (List.mem_cons_self t rest)) hl hco
      exact ih u1 st1 (acc ++ [un1]) res
        (fun x hx => hne x (List.mem_cons_of_mem t hx)) h1 hok

theorem spendAll_append (h : Nat) :
    ∀ (pre suf : List TxIn) (u : UTXO) (st : ChainState) (undo : Undo),
      spendAll h u st undo (pre ++ suf) =
        match spendAll h u st undo pre with
        | .error r => .error r
        | .ok r => spendAll h r.1 r.2.1 r.2.2 suf := by
  intro pre
  induction pre with
  | nil => intro suf u st undo; rfl
  | cons i rest ih =>
    intro suf u st undo
    simp only [List.cons_append, spendAll]
    cases hci : checkInput h u st undo i with
    | error r => simp only [hci]
    | ok r =>
      obtain ⟨u1, st1, un1⟩ := r
      simp only [hci]
      exact ih suf u1 st1 un1

theorem connectRest_append (h : Nat) :
    ∀ (pre suf : List Tx) (u : UTXO) (st : ChainState) (acc : List Undo),
      connectRest h u st acc (pre ++ suf) =
        match connectRest h u st acc pre with
        | .error r => .error r
        | .ok r => connectRest h r.1 r.2.1 r.2.2 suf := by
  intro pre
  induction pre with
  | nil => intro suf u st acc; rfl
  | cons t rest ih =>
    intro suf u st acc
    simp only [List.cons_append, connectRest]
    cases hco : connectOne h u st t with
    | error r => simp only [hco]
    | ok r =>
      obtain ⟨u1, st1, un1⟩ := r
      simp only [hco]
      exact ih suf u1 st1 (acc ++ [un1])

end Bcoin

namespace Bcoin

theorem connectTxs_error_at (height : Nat) (u : UTXO) (st : ChainState)
    (cb t : Tx) (pre suf : List Tx) (u0 u1 u2 : UTXO)
    (st0 st1 st2 : ChainState) (acc1 : List Undo) (un2 : Undo)
    (ipre isuf : List TxIn) (inp : TxIn) (r : Reason)
    (hcb0 : addOutputsFrom cb.txid height true 0 u st cb.outputs = (u0, st0))
    (hpre : connectRest height u0 { st0 with tx := st0.tx + 1 } [[]] pre =
      .ok (u1, st1, acc1))
    (hins : t.inputs = ipre ++ inp :: isuf)
    (hspre : spendAll height u1 st1 [] ipre = .ok (u2, st2, un2))
    (hchk : checkInput height u2 st2 un2 inp = .error r) :
    connectTxs height u st (cb :: (pre ++ t :: suf)) = .error r := by
  have hco : connectOne height u1 st1 t = .error r := by
    unfold connectOne
    rw [hins, spendAll_append]
    simp only [hspre]
    simp only [spendAll, hchk]
  simp only [connectTxs, hcb0]
  rw [connectRest_append]
  simp only [hpre]
  simp only [connectRest, hco]

end Bcoin

/-! ## Claim C5: missing or already-spent inputs -/

/-- C5: on the connect path, a block containing a non-coinbase transaction
with an input whose referenced coin is not available in the CoinView at
the moment it is checked — already spent by an earlier block (absent from
the UTXO set), spent earlier within the same block, or created only on a
non-main branch — is rejected with `bad-txns-inputs-missingorspent`.
Moreover a coin read and spent once is removed from the live view
immediately (second conjunct) and is never observed as available again
while the remaining transactions of the block are processed (third
conjunct). -/
theorem c5_missing_or_spent_inputs :
    (∀ (c : Bcoin.Chain) (b : Bcoin.Block) (te : Bcoin.ChainEntry)
        (cb t : Bcoin.Tx) (pre suf : List Bcoin.Tx) (u0 u1 u2 : Bcoin.UTXO)
        (st0 st1 st2 : Bcoin.ChainState) (acc1 : List Bcoin.Undo)
        (un2 : Bcoin.Undo) (ipre isuf : List Bcoin.TxIn) (inp : Bcoin.TxIn),
      Bcoin.tipEntry c = some te →
      b.header.prevBlock = c.tip →
      Bcoin.checkBlock c.segwit b = none →
      b.txs = cb :: (pre ++ t :: suf) →
      Bcoin.addOutputsFrom cb.txid (te.height + 1) true 0 c.utxo c.state
        cb.outputs = (u0, st0) →
      Bcoin.connectRest (te.height + 1) u0 { st0 with tx := st0.tx + 1 }
        [[]] pre = .ok (u1, st1, acc1) →
      t.inputs = ipre ++ inp :: isuf →
      Bcoin.spendAll (te.height + 1) u1 st1 [] ipre = .ok (u2, st2, un2) →
      Bcoin.lookupCoin u2 inp.prevout = none →
      Bcoin.add c b = (.rejected .bad_txns_inputs_missingorspent, c)) ∧
    (∀ (h : Nat) (u : Bcoin.UTXO) (st : Bcoin.ChainState) (undo : Bcoin.Undo)
        (inp : Bcoin.TxIn) (r : Bcoin.UTXO × Bcoin.ChainState × Bcoin.Undo),
      Bcoin.checkInput h u st undo inp = .ok r →
      Bcoin.lookupCoin r.1 inp.prevout = none) ∧
    (∀ (h : Nat) (p : Bcoin.Outpoint) (txs : List Bcoin.Tx) (u : Bcoin.UTXO)
        (st : Bcoin.ChainState) (acc : List Bcoin.Undo)
        (res : Bcoin.UTXO × Bcoin.ChainState × List Bcoin.Undo),
      (∀ t ∈ txs, t.txid ≠ p.txid) →
      Bcoin.lookupCoin u p = none →
      Bcoin.connectRest h u st acc txs = .ok res →
      Bcoin.lookupCoin res.1 p = none) := by
  refine ⟨?_, ?_, ?_⟩
  · intro c b te cb t pre suf u0 u1 u2 st0 st1 st2 acc1 un2 ipre isuf inp
      hte hp hchkb htxs hcb0 hpre hins hspre hlook
    apply Bcoin.add_rejects_of_connectTxs c b te _ hte hp hchkb
    rw [htxs]
    apply Bcoin.connectTxs_error_at (te.height + 1) c.utxo c.state cb t pre suf
      u0 u1 u2 st0 st1 st2 acc1 un2 ipre isuf inp _ hcb0 hpre hins hspre
    unfold Bcoin.checkInput
    simp only [hlook]
  · intro h u st undo inp r hok
    rw [Bcoin.checkInput_ok_utxo h u st undo inp r hok]
    exact Bcoin.lookupCoin_eraseCoin_self u inp.prevout
  · intro h p txs u st acc res hne hl hok
    exact Bcoin.connectRest_lookup_none h p txs u st acc res hne hl hok

/-- Witness for C5: a concrete block whose third transaction re-spends the
coin its second transaction already spent is rejected with
`bad-txns-inputs-missingorspent`; the spent coin is gone from the view
immediately and stays unavailable across a later transaction. -/
theorem c5_missing_or_spent_inputs_witness :
    Bcoin.add
        { entries := [⟨1, 0, 0, 1, 0, 0, 1⟩], blocks := [], undos := []
          tip := 1, utxo := [(⟨9, 0⟩, ⟨50, false, 0⟩)], state := ⟨50, 1, 1⟩
          segwit := false, events := [] }
        { header := ⟨2, 1, 1, 0, 0⟩
          txs := [⟨5, 5, [], [⟨25, none⟩], 100, 0⟩,
            ⟨6, 6, [⟨⟨9, 0⟩, []⟩], [⟨50, none⟩], 100, 0⟩,
            ⟨7, 7, [⟨⟨9, 0⟩, []⟩], [], 100, 0⟩] } =
      (.rejected .bad_txns_inputs_missingorspent,
        { entries := [⟨1, 0, 0, 1, 0, 0, 1⟩], blocks := [], undos := []
          tip := 1, utxo := [(⟨9, 0⟩, ⟨50, false, 0⟩)], state := ⟨50, 1, 1⟩
          segwit := false, events := [] }) ∧
    Bcoin.lookupCoin [] ⟨9, 0⟩ = none ∧
    Bcoin.lookupCoin [(⟨8, 0⟩, ⟨1, false, 1⟩)] ⟨9, 0⟩ = none := by
  refine ⟨?_, ?_, ?_⟩
  · exact c5_missing_or_spent_inputs.1
      { entries := [⟨1, 0, 0, 1, 0, 0, 1⟩], blocks := [], undos := []
        tip := 1, utxo := [(⟨9, 0⟩, ⟨50, false, 0⟩)], state := ⟨50, 1, 1⟩
        segwit := false, events := [] }
      { header := ⟨2, 1, 1, 0, 0⟩
        txs := [⟨5, 5, [], [⟨25, none⟩], 100, 0⟩,
          ⟨6, 6, [⟨⟨9, 0⟩, []⟩], [⟨50, none⟩], 100, 0⟩,
          ⟨7, 7, [⟨⟨9, 0⟩, []⟩], [], 100, 0⟩] }
      ⟨1, 0, 0, 1, 0, 0, 1⟩
      ⟨5, 5, [], [⟨25, none⟩], 100, 0⟩
      ⟨7, 7, [⟨⟨9, 0⟩, []⟩], [], 100, 0⟩
      [⟨6, 6, [⟨⟨9, 0⟩, []⟩], [⟨50, none⟩], 100, 0⟩] []
      [(⟨5, 0⟩, ⟨25, true, 1⟩), (⟨9, 0⟩, ⟨50, false, 0⟩)]
      [(⟨6, 0⟩, ⟨50, false, 1⟩), (⟨5, 0⟩, ⟨25, true, 1⟩)]
      [(⟨6, 0⟩, ⟨50, false, 1⟩), (⟨5, 0⟩, ⟨25, true, 1⟩)]
      ⟨75, 2, 1⟩ ⟨75, 2, 3⟩ ⟨75, 2, 3⟩
      [[], [(⟨9, 0⟩, ⟨50, false, 0⟩)]] []
      [] [] ⟨⟨9, 0⟩, []⟩
      rfl rfl rfl rfl rfl rfl rfl rfl rfl
  · exact c5_missing_or_spent_inputs.2.1 1 [(⟨9, 0⟩, ⟨50, false, 0⟩)]
      ⟨50, 1, 1⟩ [] ⟨⟨9, 0⟩, []⟩ ([], ⟨0, 0, 1⟩, [(⟨9, 0⟩, ⟨50, false, 0⟩)]) rfl
  · exact c5_missing_or_spent_inputs.2.2 1 ⟨9, 0⟩
      [⟨8, 8, [], [⟨1, none⟩], 10, 0⟩] [] ⟨0, 0, 0⟩ []
      ([(⟨8, 0⟩, ⟨1, false, 1⟩)], ⟨1, 1, 1⟩, [[]]) (by decide) rfl rfl

/-! ## Claim C8: premature coinbase spend -/

/-- C8: on the connect path, a block containing a transaction that spends
a coinbase output whose creating block has fewer confirmations than the
fixed maturity period is rejected with
`bad-txns-premature-spend-of-coinbase`. -/
theorem c8_premature_coinbase_spend
    (c : Bcoin.Chain) (b : Bcoin.Block) (te : Bcoin.ChainEntry)
    (cb t : Bcoin.Tx) (pre suf : List Bcoin.Tx) (u0 u1 u2 : Bcoin.UTXO)
    (st0 st1 st2 : Bcoin.ChainState) (acc1 : List Bcoin.Undo)
    (un2 : Bcoin.Undo) (ipre isuf : List Bcoin.TxIn) (inp : Bcoin.TxIn)
    (coin : Bcoin.Coin)
    (hte : Bcoin.tipEntry c = some te)
    (hp : b.header.prevBlock = c.tip)
    (hchkb : Bcoin.checkBlock c.segwit b = none)
    (htxs : b.txs = cb :: (pre ++ t :: suf))
    (hcb0 : Bcoin.addOutputsFrom cb.txid (te.height + 1) true 0 c.utxo c.state
      cb.outputs = (u0, st0))
    (hpre : Bcoin.connectRest (te.height + 1) u0 { st0 with tx := st0.tx + 1 }
      [[]] pre = .ok (u1, st1, acc1))
    (hins : t.inputs = ipre ++ inp :: isuf)
    (hspre : Bcoin.spendAll (te.height + 1) u1 st1 [] ipre = .ok (u2, st2, un2))
    (hlook : Bcoin.lookupCoin u2 inp.prevout = some coin)
    (hcoin : coin.coinbase = true)
    (hmat : te.height + 1 < coin.height + Bcoin.COINBASE_MATURITY) :
    Bcoin.add c b = (.rejected .bad_txns_premature_spend_of_coinbase, c) := by
  apply Bcoin.add_rejects_of_connectTxs c b te _ hte hp hchkb
  rw [htxs]
  apply Bcoin.connectTxs_error_at (te.height + 1) c.utxo c.state cb t pre suf
    u0 u1 u2 st0 st1 st2 acc1 un2 ipre isuf inp _ hcb0 hpre hins hspre
  unfold Bcoin.checkInput
  simp only [hlook]
  rw [if_pos ⟨hcoin, hmat⟩]

/-- Witness for C8: a concrete block spending a coinbase coin created at
height 0 while connecting at height 1 is rejected as premature. -/
theorem c8_premature_coinbase_spend_witness :
    Bcoin.add
        { entries := [⟨1, 0, 0, 1, 0, 0, 1⟩], blocks := [], undos := []
          tip := 1, utxo := [(⟨9, 0⟩, ⟨50, true, 0⟩)], state := ⟨50, 1, 1⟩
          segwit := false, events := [] }
        { header := ⟨2, 1, 1, 0, 0⟩
          txs := [⟨5, 5, [], [⟨25, none⟩], 100, 0⟩,
            ⟨6, 6, [⟨⟨9, 0⟩, []⟩], [], 100, 0⟩] } =
      (.rejected .bad_txns_premature_spend_of_coinbase,
        { entries := [⟨1, 0, 0, 1, 0, 0, 1⟩], blocks := [], undos := []
          tip := 1, utxo := [(⟨9, 0⟩, ⟨50, true, 0⟩)], state := ⟨50, 1, 1⟩
          segwit := false, events := [] }) := by
  exact c8_premature_coinbase_spend
    { entries := [⟨1, 0, 0, 1, 0, 0, 1⟩], blocks := [], undos := []
      tip := 1, utxo := [(⟨9, 0⟩, ⟨50, true, 0⟩)], state := ⟨50, 1, 1⟩
      segwit := false, events := [] }
    { header := ⟨2, 1, 1, 0, 0⟩
      txs := [⟨5, 5, [], [⟨25, none⟩], 100, 0⟩,
        ⟨6, 6, [⟨⟨9, 0⟩, []⟩], [], 100, 0⟩] }
    ⟨1, 0, 0, 1, 0, 0, 1⟩
    ⟨5, 5, [], [⟨25, none⟩], 100, 0⟩
    ⟨6, 6, [⟨⟨9, 0⟩, []⟩], [], 100, 0⟩
    [] []
    [(⟨5, 0⟩, ⟨25, true, 1⟩), (⟨9, 0⟩, ⟨50, true, 0⟩)]
    [(⟨5, 0⟩, ⟨25, true, 1⟩), (⟨9, 0⟩, ⟨50, true, 0⟩)]
    [(⟨5, 0⟩, ⟨25, true, 1⟩), (⟨9, 0⟩, ⟨50, true, 0⟩)]
    ⟨75, 2, 1⟩ ⟨75, 2, 2⟩ ⟨75, 2, 2⟩
    [[]] []
    [] [] ⟨⟨9, 0⟩, []⟩ ⟨50, true, 0⟩
    rfl rfl rfl rfl rfl rfl rfl rfl rfl rfl (by decide)

namespace Bcoin

/-! ### Lemmas about the chain index and the main-chain walk -/

theorem findEntryIn_filter_ne (eh h : Nat) (hne : h ≠ eh) :
    ∀ l : List ChainEntry,
      findEntryIn (l.filter (fun x => x.hash ≠ eh)) h = findEntryIn l h := by
  intro l
  induction l with
  | nil => rfl
  | cons x rest ih =>
    rw [List.filter_cons]
    by_cases hx : x.hash = eh
    · rw [if_neg (by simp [hx])]
      rw [ih]
      have hxh : ¬x.hash = h := fun hh => hne (by rw [← hh, hx])
      simp [findEntryIn, hxh]
    · rw [if_pos (by simp [hx])]
      by_cases hxh : x.hash = h
      · simp [findEntryIn, hxh]
      · simp only [findEntryIn, if_neg hxh]
        exact ih

theorem findEntryIn_insertEntry (l : List ChainEntry) (e : ChainEntry) (h : Nat) :
    findEntryIn (insertEntry l e) h =
      if e.hash = h then some e else findEntryIn l h := by
  by_cases hh : e.hash = h
  · simp [insertEntry, findEntryIn, hh]
  · simp only [insertEntry, findEntryIn, hh, if_neg hh]
    exact findEntryIn_filter_ne e.hash h (fun hc => hh hc.symm) l

theorem mem_walkPath_findEntry (c : Chain) :
    ∀ (fuel : Nat) (start h : Nat), h ∈ walkPath c fuel start →
      ∃ e, findEntry c h = some e := by
  intro fuel
  induction fuel with
  | zero => intro start h hm; simp [walkPath] at hm
  | succ n ih =>
    intro start h hm
    simp only [walkPath] at hm
    cases hfe : findEntry c start with
    | none => rw [hfe] at hm; simp at hm
    | some en =>
      rw [hfe] at hm
      rcases List.mem_cons.mp hm with h1 | h2
      · exact ⟨en, h1 ▸ hfe⟩
      · exact ih en.prevBlock h h2

theorem walkPath_congr (c1 c2 : Chain)
    (hcong : ∀ h, findEntry c2 h = findEntry c1 h) :
    ∀ (fuel : Nat) (start : Nat), walkPath c2 fuel start = walkPath c1 fuel start := by
  intro fuel
  induction fuel with
  | zero => intro start; rfl
  | succ n ih =>
    intro start
    simp only [walkPath, hcong start]
    cases findEntry c1 start with
    | none => rfl
    | some en =>
      show start :: walkPath c2 n en.prevBlock = start :: walkPath c1 n en.prevBlock
      rw [ih en.prevBlock]

theorem walkPath_insert_fresh (c c2 : Chain) (e : ChainEntry)
    (hent : c2.entries = insertEntry c.entries e)
    (hfresh : findEntry c e.hash = none) :
    ∀ (fuel : Nat) (start : Nat), (walkPath c fuel start).length = fuel →
      walkPath c2 fuel start = walkPath c fuel start := by
  intro fuel
  induction fuel with
  | zero => intro start _; rfl
  | succ n ih =>
    intro start hlen
    cases hfe : findEntry c start with
    | none =>
      simp only [walkPath, hfe] at hlen
      exact absurd hlen (by simp)
    | some en =>
      have hsne : e.hash ≠ start := by
        intro hh
        rw [← hh, hfresh] at hfe
        exact absurd hfe (by simp)
      have hfe2 : findEntry c2 start = some en := by
        unfold findEntry
        rw [hent, findEntryIn_insertEntry, if_neg hsne]
        exact hfe
      simp only [walkPath, hfe, hfe2, List.length_cons] at hlen ⊢
      rw [ih en.prevBlock (by omega)]

end Bcoin

/-! ## Claim C2: equal chainwork — first seen wins -/

/-- C2: when a candidate extends a competing branch whose cumulative
chainwork does not exceed the current tip's (in particular when the works
are equal), `add` keeps the first-seen tip: the result is
accepted-as-side-branch, the candidate's entry is indexed and its block
stored, but the tip, the UTXO set, the aggregate state and the event log
are untouched and the candidate is not on the main chain. -/
theorem c2_equal_chainwork_first_seen_wins
    (c : Bcoin.Chain) (b : Bcoin.Block) (prev te : Bcoin.ChainEntry)
    (hfe : Bcoin.findEntry c b.header.prevBlock = some prev)
    (hne : b.header.prevBlock ≠ c.tip)
    (hte : Bcoin.tipEntry c = some te)
    (hw : (Bcoin.buildEntry prev b).chainwork ≤ te.chainwork)
    (hfresh : Bcoin.findEntry c b.header.hash = none)
    (hclosed : (Bcoin.mainPath c).length = Bcoin.tipHeight c + 1) :
    ∀ (res : Bcoin.AddResult) (c' : Bcoin.Chain), Bcoin.add c b = (res, c') →
      res = .side (Bcoin.buildEntry prev b) ∧
      c'.tip = c.tip ∧ c'.utxo = c.utxo ∧ c'.state = c.state ∧
      c'.events = c.events ∧
      Bcoin.tipEntry c' = some te ∧
      Bcoin.findEntry c' b.header.hash = some (Bcoin.buildEntry prev b) ∧
      Bcoin.isMainChain c' b.header.hash = false := by
  intro res c' hadd
  simp only [Bcoin.add, hfe] at hadd
  rw [if_neg hne] at hadd
  simp only [hte] at hadd
  rw [if_pos hw] at hadd
  have hres : res = .side (Bcoin.buildEntry prev b) := (congrArg Prod.fst hadd).symm
  have hc' : c' =
      { c with entries := Bcoin.insertEntry c.entries (Bcoin.buildEntry prev b)
               blocks := Bcoin.assocInsert c.blocks
                 (Bcoin.buildEntry prev b).hash b } :=
    (congrArg Prod.snd hadd).symm
  have hbh : (Bcoin.buildEntry prev b).hash = b.header.hash := rfl
  have htipne : b.header.hash ≠ c.tip := by
    intro hh
    unfold Bcoin.tipEntry at hte
    rw [← hh, hfresh] at hte
    exact absurd hte (by simp)
  have hlookup : ∀ h, h ≠ b.header.hash →
      Bcoin.findEntry c' h = Bcoin.findEntry c h := by
    intro h hh
    rw [hc']
    unfold Bcoin.findEntry
    show Bcoin.findEntryIn (Bcoin.insertEntry c.entries (Bcoin.buildEntry prev b)) h =
      Bcoin.findEntryIn c.entries h
    rw [Bcoin.findEntryIn_insertEntry,
      if_neg (by rw [hbh]; exact fun hc => hh hc.symm)]
  have htip' : c'.tip = c.tip := by rw [hc']
  have htipe : Bcoin.tipEntry c' = some te := by
    unfold Bcoin.tipEntry
    rw [htip', hlookup c.tip (fun hh => htipne hh.symm)]
    exact hte
  have hth : Bcoin.tipHeight c' = Bcoin.tipHeight c := by
    unfold Bcoin.tipHeight
    rw [htipe, hte]
  have hpath : Bcoin.mainPath c' = Bcoin.mainPath c := by
    unfold Bcoin.mainPath
    rw [hth, htip']
    apply Bcoin.walkPath_insert_fresh c c' (Bcoin.buildEntry prev b)
    · rw [hc']
    · rw [hbh]; exact hfresh
    · exact hclosed
  have hnotmem : b.header.hash ∉ Bcoin.mainPath c := by
    intro hm
    rcases Bcoin.mem_walkPath_findEntry c (Bcoin.tipHeight c + 1) c.tip
      b.header.hash hm with ⟨e0, he0⟩
    rw [hfresh] at he0
    exact absurd he0 (by simp)
  refine ⟨hres, htip', by rw [hc'], by rw [hc'], by rw [hc'], htipe, ?_, ?_⟩
  · rw [hc']
    unfold Bcoin.findEntry
    show Bcoin.findEntryIn (Bcoin.insertEntry c.entries (Bcoin.buildEntry prev b))
        b.header.hash = some (Bcoin.buildEntry prev b)
    rw [Bcoin.findEntryIn_insertEntry, if_pos hbh]
  · unfold Bcoin.isMainChain
    rw [hpath]
    exact decide_eq_false hnotmem

/-- Witness for C2: a concrete equal-work competitor of the tip is
accepted as a dormant side branch and the first-seen tip is kept. -/
theorem c2_equal_chainwork_first_seen_wins_witness :
    (Bcoin.AddResult.side (⟨3, 1, 1, 1, 0, 0, 2⟩ : Bcoin.ChainEntry) =
        .side (Bcoin.buildEntry ⟨1, 0, 0, 1, 0, 0, 1⟩
          { header := ⟨3, 1, 1, 0, 0⟩, txs := [] })) ∧
    Bcoin.isMainChain
      { entries := [⟨3, 1, 1, 1, 0, 0, 2⟩, ⟨1, 0, 0, 1, 0, 0, 1⟩,
          ⟨2, 1, 1, 1, 0, 0, 2⟩]
        blocks := [(3, { header := ⟨3, 1, 1, 0, 0⟩, txs := [] })], undos := []
        tip := 2, utxo := [], state := ⟨0, 0, 0⟩, segwit := false
        events := [] } 3 = false := by
  have h := c2_equal_chainwork_first_seen_wins
    { entries := [⟨1, 0, 0, 1, 0, 0, 1⟩, ⟨2, 1, 1, 1, 0, 0, 2⟩], blocks := []
      undos := [], tip := 2, utxo := [], state := ⟨0, 0, 0⟩, segwit := false
      events := [] }
    { header := ⟨3, 1, 1, 0, 0⟩, txs := [] }
    ⟨1, 0, 0, 1, 0, 0, 1⟩ ⟨2, 1, 1, 1, 0, 0, 2⟩
    rfl (by decide) rfl (by decide) rfl (by decide)
    (.side (⟨3, 1, 1, 1, 0, 0, 2⟩ : Bcoin.ChainEntry))
    { entries := [⟨3, 1, 1, 1, 0, 0, 2⟩, ⟨1, 0, 0, 1, 0, 0, 1⟩,
        ⟨2, 1, 1, 1, 0, 0, 2⟩]
      blocks := [(3, { header := ⟨3, 1, 1, 0, 0⟩, txs := [] })], undos := []
      tip := 2, utxo := [], state := ⟨0, 0, 0⟩, segwit := false
      events := [] }
    rfl
  exact ⟨h.1, h.2.2.2.2.2.2.2⟩

namespace Bcoin

/-! ### Shape lemmas for connect/disconnect sequences -/

theorem connectBlock_ok_shape (c : Chain) (e : ChainEntry) (b : Block)
    (c1 : Chain) (hok : connectBlock c e b = .ok c1) :
    c1.tip = e.hash ∧ c1.events = c.events ++ [.connect e.hash] ∧
    findEntry c1 e.hash = some e := by
  unfold connectBlock at hok
  cases hcb : checkBlock c.segwit b with
  | some r => exact absurd hok (by simp [hcb])
  | none =>
    simp only [hcb] at hok
    cases hct : connectTxs e.height c.utxo c.state b.txs with
    | error r => exact absurd hok (by simp [hct])
    | ok res =>
      obtain ⟨u1, st1, uns⟩ := res
      simp only [hct, Except.ok.injEq] at hok
      rw [← hok]
      refine ⟨rfl, rfl, ?_⟩
      unfold findEntry
      show findEntryIn (insertEntry c.entries e) e.hash = some e
      rw [findEntryIn_insertEntry, if_pos rfl]

theorem connectAll_ok_events :
    ∀ (l : List (ChainEntry × Block)) (c c1 : Chain),
      connectAll c l = .ok c1 →
      ∃ evs, c1.events = c.events ++ evs ∧
        ∀ ev ∈ evs, ∃ hh, ev = Event.connect hh := by
  intro l
  induction l with
  | nil =>
    intro c c1 hok
    simp only [connectAll, Except.ok.injEq] at hok
    exact ⟨[], by rw [← hok]; simp, by simp⟩
  | cons eb rest ih =>
    intro c c1 hok
    simp only [connectAll] at hok
    cases hcb : connectBlock c eb.1 eb.2 with
    | error r => exact absurd hok (by simp [hcb])
    | ok cmid =>
      simp only [hcb] at hok
      rcases ih cmid c1 hok with ⟨evs, hev, hall⟩
      rcases connectBlock_ok_shape c eb.1 eb.2 cmid hcb with ⟨-, hevm, -⟩
      refine ⟨Event.connect eb.1.hash :: evs, ?_, ?_⟩
      · rw [hev, hevm]
        simp
      · intro ev hm
        rcases List.mem_cons.mp hm with h1 | h2
        · exact ⟨eb.1.hash, h1⟩
        · exact hall ev h2

theorem disconnectTo_some_events :
    ∀ (fuel : Nat) (c : Chain) (anc : Nat) (c1 : Chain),
      disconnectTo fuel c anc = some c1 →
      ∃ evs, c1.events = c.events ++ evs ∧
        ∀ ev ∈ evs, ∃ hh, ev = Event.disconnect hh := by
  intro fuel
  induction fuel with
  | zero => intro c anc c1 h; exact absurd h (by simp [disconnectTo])
  | succ n ih =>
    intro c anc c1 h
    unfold disconnectTo at h
    by_cases htip : c.tip = anc
    · rw [if_pos htip] at h
      simp only [Option.some.injEq] at h
      exact ⟨[], by rw [← h]; simp, by simp⟩
    · rw [if_neg htip] at h
      cases hte : tipEntry c with
      | none => rw [hte] at h; exact absurd h (by simp)
      | some te =>
        cases hgb : getBlock c c.tip with
        | none => rw [hte, hgb] at h; exact absurd h (by simp)
        | some blk =>
          cases hgu : getUndo c c.tip with
          | none => rw [hte, hgb, hgu] at h; exact absurd h (by simp)
          | some und =>
            rw [hte, hgb, hgu] at h
            rcases ih (disconnectBlock c te blk und) anc c1 h with
              ⟨evs, hev, hall⟩
            refine ⟨Event.disconnect te.hash :: evs, ?_, ?_⟩
            · rw [hev]
              have hde : (disconnectBlock c te blk und).events =
                  c.events ++ [Event.disconnect te.hash] := rfl
              rw [hde, List.append_assoc]
              rfl
            · intro ev hm
              rcases List.mem_cons.mp hm with h1 | h2
              · exact ⟨te.hash, h1⟩
              · exact hall ev h2

end Bcoin

/-! ## Claim C1: greater chainwork triggers reorganization -/

/-- C1: a candidate block on a competing branch whose cumulative chainwork
strictly exceeds the current best tip's, once accepted, has performed a
reorganization: the candidate is the new best tip (its entry is indexed
and the tip hash is the candidate's hash), the emitted events of the call
are some disconnect events followed by a `reorganize` event followed by
one or more `connect` events, and afterwards the best tip's chainwork is
strictly greater than the previous tip's chainwork. -/
theorem c1_reorganization_on_greater_work
    (c : Bcoin.Chain) (b : Bcoin.Block) (prev te : Bcoin.ChainEntry)
    (e' : Bcoin.ChainEntry) (c' : Bcoin.Chain)
    (hfe : Bcoin.findEntry c b.header.prevBlock = some prev)
    (hne : b.header.prevBlock ≠ c.tip)
    (hte : Bcoin.tipEntry c = some te)
    (hw : te.chainwork < (Bcoin.buildEntry prev b).chainwork)
    (hadd : Bcoin.add c b = (.tip e', c')) :
    e' = Bcoin.buildEntry prev b ∧
    c'.tip = b.header.hash ∧
    Bcoin.tipEntry c' = some (Bcoin.buildEntry prev b) ∧
    te.chainwork < (Bcoin.buildEntry prev b).chainwork ∧
    (∃ evs1 evs2,
      c'.events = c.events ++ evs1 ++
        (Bcoin.Event.reorganize b.header.hash :: evs2) ∧
      (∀ ev ∈ evs1, ∃ hh, ev = Bcoin.Event.disconnect hh) ∧
      (∀ ev ∈ evs2, ∃ hh, ev = Bcoin.Event.connect hh) ∧
      evs2 ≠ []) := by
  simp only [Bcoin.add, hfe] at hadd
  rw [if_neg hne] at hadd
  simp only [hte] at hadd
  rw [if_neg (Nat.not_le.mpr hw)] at hadd
  cases hrg : Bcoin.reorg c te (Bcoin.buildEntry prev b) b with
  | error r =>
    simp only [hrg] at hadd
    exact absurd (congrArg Prod.fst hadd) (by simp)
  | ok c'' =>
    simp only [hrg, Prod.mk.injEq, Bcoin.AddResult.tip.injEq] at hadd
    have he' : e' = Bcoin.buildEntry prev b := hadd.1.symm
    have hc' : c' = c'' := hadd.2.symm
    subst hc'
    unfold Bcoin.reorg at hrg
    cases hff : Bcoin.findFork c ((Bcoin.buildEntry prev b).height + 1)
        b.header.prevBlock with
    | none =>
      simp only [hff] at hrg
      exact absurd hrg (by simp)
    | some ab =>
      simp only [hff] at hrg
      cases hdt : Bcoin.disconnectTo (te.height + 1) c ab.1 with
      | none =>
        simp only [hdt] at hrg
        exact absurd hrg (by simp)
      | some c1 =>
        simp only [hdt] at hrg
        cases hca : Bcoin.connectAll
            { c1 with events := c1.events ++
                [.reorganize (Bcoin.buildEntry prev b).hash] } ab.2 with
        | error r =>
          simp only [hca] at hrg
          exact absurd hrg (by simp)
        | ok c3 =>
          simp only [hca] at hrg
          rcases Bcoin.connectBlock_ok_shape c3 (Bcoin.buildEntry prev b) b c'
            hrg with ⟨htip, hev, hfind⟩
          rcases Bcoin.connectAll_ok_events ab.2 _ c3 hca with ⟨evsB, hevB, hallB⟩
          rcases Bcoin.disconnectTo_some_events (te.height + 1) c ab.1 c1 hdt
            with ⟨evsA, hevA, hallA⟩
          have hbh : (Bcoin.buildEntry prev b).hash = b.header.hash := rfl
          refine ⟨he', by rw [htip]; exact hbh, ?_, hw, ?_⟩
          · unfold Bcoin.tipEntry
            rw [htip]
            exact hfind
          · refine ⟨evsA, evsB ++ [Bcoin.Event.connect b.header.hash], ?_,
              hallA, ?_, ?_⟩
            · rw [hev, hevB, hevA, hbh]
              simp
            · intro ev hm
              rcases List.mem_append.mp hm with h1 | h2
              · exact hallB ev h1
              · simp only [List.mem_singleton] at h2
                exact ⟨b.header.hash, h2⟩
            · simp

/-- Witness for C1: a concrete candidate on a side branch with chainwork 3
(against the tip's 2) triggers a reorganization: the tip becomes the
candidate and the events of the call are a disconnect, the reorganize, and
two connects. -/
theorem c1_reorganization_on_greater_work_witness :
    ({ entries := [⟨4, 3, 2, 1, 0, 0, 3⟩, ⟨3, 1, 1, 1, 0, 0, 2⟩,
          ⟨1, 0, 0, 1, 0, 0, 1⟩, ⟨2, 1, 1, 1, 0, 0, 2⟩]
       blocks := [(4, { header := ⟨4, 3, 1, 0, 0⟩
                        txs := [⟨12, 12, [], [⟨25, none⟩], 100, 0⟩] }),
                  (3, { header := ⟨3, 1, 1, 0, 0⟩
                        txs := [⟨11, 11, [], [⟨25, none⟩], 100, 0⟩] }),
                  (2, { header := ⟨2, 1, 1, 0, 0⟩
                        txs := [⟨10, 10, [], [⟨25, none⟩], 100, 0⟩] })]
       undos := [(4, [[]]), (3, [[]]), (2, [[]])]
       tip := 4
       utxo := [(⟨12, 0⟩, ⟨25, true, 2⟩), (⟨11, 0⟩, ⟨25, true, 1⟩)]
       state := ⟨50, 2, 3⟩
       segwit := false
       events := [.disconnect 2, .reorganize 4, .connect 3, .connect 4] }
        : Bcoin.Chain).tip = 4 ∧
    (∃ evs1 evs2,
      ([Bcoin.Event.disconnect 2, Bcoin.Event.reorganize 4,
        Bcoin.Event.connect 3, Bcoin.Event.connect 4] : List Bcoin.Event) =
        [] ++ evs1 ++ (Bcoin.Event.reorganize 4 :: evs2) ∧
      (∀ ev ∈ evs1, ∃ hh, ev = Bcoin.Event.disconnect hh) ∧
      (∀ ev ∈ evs2, ∃ hh, ev = Bcoin.Event.connect hh) ∧
      evs2 ≠ []) := by
  have h := c1_reorganization_on_greater_work
    { entries := [⟨1, 0, 0, 1, 0, 0, 1⟩, ⟨2, 1, 1, 1, 0, 0, 2⟩,
        ⟨3, 1, 1, 1, 0, 0, 2⟩]
      blocks := [(2, { header := ⟨2, 1, 1, 0, 0⟩
                       txs := [⟨10, 10, [], [⟨25, none⟩], 100, 0⟩] }),
                 (3, { header := ⟨3, 1, 1, 0, 0⟩
                       txs := [⟨11, 11, [], [⟨25, none⟩], 100, 0⟩] })]
      undos := [(2, [[]])]
      tip := 2
      utxo := [(⟨10, 0⟩, ⟨25, false, 1⟩)]
      state := ⟨25, 1, 2⟩
      segwit := false
      events := [] }
    { header := ⟨4, 3, 1, 0, 0⟩, txs := [⟨12, 12, [], [⟨25, none⟩], 100, 0⟩] }
    ⟨3, 1, 1, 1, 0, 0, 2⟩ ⟨2, 1, 1, 1, 0, 0, 2⟩ ⟨4, 3, 2, 1, 0, 0, 3⟩
    { entries := [⟨4, 3, 2, 1, 0, 0, 3⟩, ⟨3, 1, 1, 1, 0, 0, 2⟩,
        ⟨1, 0, 0, 1, 0, 0, 1⟩, ⟨2, 1, 1, 1, 0, 0, 2⟩]
      blocks := [(4, { header := ⟨4, 3, 1, 0, 0⟩
                       txs := [⟨12, 12, [], [⟨25, none⟩], 100, 0⟩] }),
                 (3, { header := ⟨3, 1, 1, 0, 0⟩
                       txs := [⟨11, 11, [], [⟨25, none⟩], 100, 0⟩] }),
                 (2, { header := ⟨2, 1, 1, 0, 0⟩
                       txs := [⟨10, 10, [], [⟨25, none⟩], 100, 0⟩] })]
      undos := [(4, [[]]), (3, [[]]), (2, [[]])]
      tip := 4
      utxo := [(⟨12, 0⟩, ⟨25, true, 2⟩), (⟨11, 0⟩, ⟨25, true, 1⟩)]
      state := ⟨50, 2, 3⟩
      segwit := false
      events := [.disconnect 2, .reorganize 4, .connect 3, .connect 4] }
    rfl (by decide) rfl (by decide) rfl
  exact ⟨h.2.1, h.2.2.2.2⟩

namespace Bcoin

/-! ### Value/coin aggregate tracking (claim C4 groundwork) -/

theorem utxoValue_insertCoin (u : UTXO) (p : Outpoint) (c : Coin) :
    utxoValue (insertCoin u p c) = c.value + utxoValue (eraseCoin u p) := rfl

theorem addCoin_vc {u : UTXO} {st : ChainState} (p : Outpoint) (c : Coin)
    (h : vcOk u st) : vcOk (addCoin u st p c).1 (addCoin u st p c).2 := by
  obtain ⟨hnd, hv, hc⟩ := h
  unfold addCoin
  cases hl : lookupCoin u p with
  | none =>
    refine ⟨nodupKeys_insertCoin p c hnd, ?_, ?_⟩
    · show st.value + c.value = utxoValue (insertCoin u p c)
      rw [utxoValue_insertCoin, eraseCoin_of_lookup_none hl]
      omega
    · show st.coin + 1 = (insertCoin u p c).length
      rw [insertCoin, List.length_cons, eraseCoin_of_lookup_none hl]
      omega
  | some c0 =>
    refine ⟨nodupKeys_insertCoin p c hnd, ?_, ?_⟩
    · show st.value - c0.value + c.value = utxoValue (insertCoin u p c)
      rw [utxoValue_insertCoin]
      have := utxoValue_eraseCoin hnd hl
      omega
    · show st.coin = (insertCoin u p c).length
      rw [insertCoin, List.length_cons]
      have := length_eraseCoin hnd hl
      omega

theorem addCoin_tx (u : UTXO) (st : ChainState) (p : Outpoint) (c : Coin) :
    (addCoin u st p c).2.tx = st.tx := by
  unfold addCoin
  cases lookupCoin u p <;> rfl

theorem removeCoin_vc {u : UTXO} {st : ChainState} (p : Outpoint)
    (h : vcOk u st) : vcOk (removeCoin u st p).1 (removeCoin u st p).2 := by
  obtain ⟨hnd, hv, hc⟩ := h
  unfold removeCoin
  cases hl : lookupCoin u p with
  | none => exact ⟨hnd, hv, hc⟩
  | some c0 =>
    refine ⟨nodupKeys_eraseCoin p hnd, ?_, ?_⟩
    · show st.value - c0.value = utxoValue (eraseCoin u p)
      have := utxoValue_eraseCoin hnd hl
      omega
    · show st.coin - 1 = (eraseCoin u p).length
      have := length_eraseCoin hnd hl
      omega

theorem removeCoin_tx (u : UTXO) (st : ChainState) (p : Outpoint) :
    (removeCoin u st p).2.tx = st.tx := by
  unfold removeCoin
  cases lookupCoin u p <;> rfl

theorem checkInput_vc {height : Nat} {u : UTXO} {st : ChainState}
    {undo : Undo} {inp : TxIn} {r : UTXO × ChainState × Undo}
    (h : vcOk u st) (hok : checkInput height u st undo inp = .ok r) :
    vcOk r.1 r.2.1 ∧ r.2.1.tx = st.tx := by
  obtain ⟨hnd, hv, hc⟩ := h
  unfold checkInput at hok
  cases hl : lookupCoin u inp.prevout with
  | none => exact absurd hok (by simp [hl])
  | some coin =>
    simp only [hl] at hok
    by_cases hcb : coin.coinbase = true ∧ height < coin.height + COINBASE_MATURITY
    · rw [if_pos hcb] at hok
      exact absurd hok (by simp)
    · rw [if_neg hcb] at hok
      simp only [Except.ok.injEq] at hok
      rw [← hok]
      refine ⟨⟨nodupKeys_eraseCoin inp.prevout hnd, ?_, ?_⟩, rfl⟩
      · show st.value - coin.value = utxoValue (eraseCoin u inp.prevout)
        have := utxoValue_eraseCoin hnd hl
        omega
      · show st.coin - 1 = (eraseCoin u inp.prevout).length
        have := length_eraseCoin hnd hl
        omega

theorem spendAll_vc {height : Nat} :
    ∀ {inps : List TxIn} {u : UTXO} {st : ChainState} {undo : Undo}
      {r : UTXO × ChainState × Undo},
      vcOk u st → spendAll height u st undo inps = .ok r →
      vcOk r.1 r.2.1 ∧ r.2.1.tx = st.tx := by
  intro inps
  induction inps with
  | nil =>
    intro u st undo r h hok
    simp only [spendAll, Except.ok.injEq] at hok
    rw [← hok]
    exact ⟨h, rfl⟩
  | cons i rest ih =>
    intro u st undo r h hok
    simp only [spendAll] at hok
    cases hci : checkInput height u st undo i with
    | error e => exact absurd hok (by simp [hci])
    | ok r1 =>
      obtain ⟨u1, st1, un1⟩ := r1
      simp only [hci] at hok
      obtain ⟨hvc1, htx1⟩ := checkInput_vc h hci
      obtain ⟨hvc2, htx2⟩ := ih hvc1 hok
      exact ⟨hvc2, by rw [htx2]; exact htx1⟩

theorem addOutputsFrom_vc {txid height : Nat} {cbf : Bool} :
    ∀ {outs : List TxOut} {j : Nat} {u : UTXO} {st : ChainState},
      vcOk u st →
      vcOk (addOutputsFrom txid height cbf j u st outs).1
        (addOutputsFrom txid height cbf j u st outs).2 ∧
      (addOutputsFrom txid height cbf j u st outs).2.tx = st.tx := by
  intro outs
  induction outs with
  | nil => intro j u st h; exact ⟨h, rfl⟩
  | cons o rest ih =>
    intro j u st h
    simp only [addOutputsFrom]
    obtain ⟨hvc2, htx2⟩ := ih (addCoin_vc ⟨txid, j⟩ ⟨o.value, cbf, height⟩ h)
    exact ⟨hvc2, by rw [htx2]; exact addCoin_tx u st ⟨txid, j⟩ _⟩

theorem connectOne_vc {height : Nat} {u : UTXO} {st : ChainState} {t : Tx}
    {r : UTXO × ChainState × Undo}
    (h : vcOk u st) (hok : connectOne height u st t = .ok r) :
    vcOk r.1 r.2.1 ∧ r.2.1.tx = st.tx + 1 := by
  unfold connectOne at hok
  cases hsa : spendAll height u st [] t.inputs with
  | error e => exact absurd hok (by simp [hsa])
  | ok r1 =>
    obtain ⟨u1, st1, un1⟩ := r1
    simp only [hsa, Except.ok.injEq] at hok
    obtain ⟨hvc1, htx1⟩ := spendAll_vc h hsa
    obtain ⟨hvc2, htx2⟩ := @addOutputsFrom_vc t.txid height false t.outputs 0
      u1 st1 hvc1
    rw [← hok]
    refine ⟨⟨hvc2.1, hvc2.2.1, hvc2.2.2⟩, ?_⟩
    show (addOutputsFrom t.txid height false 0 u1 st1 t.outputs).2.tx + 1 =
      st.tx + 1
    rw [htx2, htx1]

theorem connectRest_vc {height : Nat} :
    ∀ {txs : List Tx} {u : UTXO} {st : ChainState} {acc : List Undo}
      {r : UTXO × ChainState × List Undo},
      vcOk u st → connectRest height u st acc txs = .ok r →
      vcOk r.1 r.2.1 ∧ r.2.1.tx = st.tx + txs.length := by
  intro txs
  induction txs with
  | nil =>
    intro u st acc r h hok
    simp only [connectRest, Except.ok.injEq] at hok
    rw [← hok]
    exact ⟨h, rfl⟩
  | cons t rest ih =>
    intro u st acc r h hok
    simp only [connectRest] at hok
    cases hco : connectOne height u st t with
    | error e => exact absurd hok (by simp [hco])
    | ok r1 =>
      obtain ⟨u1, st1, un1⟩ := r1
      simp only [hco] at hok
      obtain ⟨hvc1, htx1⟩ := connectOne_vc h hco
      obtain ⟨hvc2, htx2⟩ := ih hvc1 hok
      refine ⟨hvc2, ?_⟩
      rw [htx2, htx1, List.length_cons]
      omega

theorem connectTxs_vc {height : Nat} {txs : List Tx} {u : UTXO}
    {st : ChainState} {r : UTXO × ChainState × List Undo}
    (h : vcOk u st) (hok : connectTxs height u st txs = .ok r) :
    vcOk r.1 r.2.1 ∧ r.2.1.tx = st.tx + txs.length := by
  cases txs with
  | nil => exact absurd hok (by simp [connectTxs])
  | cons cb rest =>
    simp only [connectTxs] at hok
    obtain ⟨hvc1, htx1⟩ := @addOutputsFrom_vc cb.txid height true cb.outputs 0
      u st h
    have hvc1' : vcOk (addOutputsFrom cb.txid height true 0 u st cb.outputs).1
        { (addOutputsFrom cb.txid height true 0 u st cb.outputs).2 with
          tx := (addOutputsFrom cb.txid height true 0 u st cb.outputs).2.tx + 1 } :=
      ⟨hvc1.1, hvc1.2.1, hvc1.2.2⟩
    obtain ⟨hvc2, htx2⟩ := connectRest_vc hvc1' hok
    refine ⟨hvc2, ?_⟩
    rw [htx2]
    show (addOutputsFrom cb.txid height true 0 u st cb.outputs).2.tx + 1 +
      rest.length = st.tx + (cb :: rest).length
    rw [htx1, List.length_cons]
    omega

theorem restoreUndo_vc :
    ∀ {un : Undo} {u : UTXO} {st : ChainState},
      vcOk u st →
      vcOk (restoreUndo u st un).1 (restoreUndo u st un).2 ∧
      (restoreUndo u st un).2.tx = st.tx := by
  intro un
  induction un with
  | nil => intro u st h; exact ⟨h, rfl⟩
  | cons pc rest ih =>
    intro u st h
    simp only [restoreUndo]
    obtain ⟨hvc2, htx2⟩ := ih (addCoin_vc pc.1 pc.2 h)
    exact ⟨hvc2, by rw [htx2]; exact addCoin_tx u st pc.1 pc.2⟩

theorem removeOutputsFrom_vc {txid : Nat} :
    ∀ {outs : List TxOut} {j : Nat} {u : UTXO} {st : ChainState},
      vcOk u st →
      vcOk (removeOutputsFrom txid j u st outs).1
        (removeOutputsFrom txid j u st outs).2 ∧
      (removeOutputsFrom txid j u st outs).2.tx = st.tx := by
  intro outs
  induction outs with
  | nil => intro j u st h; exact ⟨h, rfl⟩
  | cons o rest ih =>
    intro j u st h
    simp only [removeOutputsFrom]
    obtain ⟨hvc2, htx2⟩ := ih (removeCoin_vc ⟨txid, j⟩ h)
    exact ⟨hvc2, by rw [htx2]; exact removeCoin_tx u st ⟨txid, j⟩⟩

theorem disconnectTxs_vc :
    ∀ {tus : List (Tx × Undo)} {u : UTXO} {st : ChainState},
      vcOk u st →
      vcOk (disconnectTxs u st tus).1 (disconnectTxs u st tus).2 ∧
      (disconnectTxs u st tus).2.tx = st.tx := by
  intro tus
  induction tus with
  | nil => intro u st h; exact ⟨h, rfl⟩
  | cons tu rest ih =>
    intro u st h
    simp only [disconnectTxs, disconnectTx]
    obtain ⟨hvc1, htx1⟩ := @removeOutputsFrom_vc tu.1.txid tu.1.outputs 0
      u st h
    obtain ⟨hvc2, htx2⟩ := @restoreUndo_vc tu.2 _ _ hvc1
    obtain ⟨hvc3, htx3⟩ := ih hvc2
    exact ⟨hvc3, by rw [htx3, htx2, htx1]⟩

end Bcoin

namespace Bcoin

/-! ### Index lemmas for the C4 invariant -/

theorem findEntryIn_some_hash :
    ∀ {l : List ChainEntry} {h : Nat} {e : ChainEntry},
      findEntryIn l h = some e → e.hash = h := by
  intro l
  induction l with
  | nil => intro h e hf; exact absurd hf (by simp [findEntryIn])
  | cons x rest ih =>
    intro h e hf
    by_cases hx : x.hash = h
    · simp only [findEntryIn, if_pos hx, Option.some.injEq] at hf
      rw [← hf]; exact hx
    · simp only [findEntryIn, if_neg hx] at hf
      exact ih hf

theorem findEntryIn_some_mem :
    ∀ {l : List ChainEntry} {h : Nat} {e : ChainEntry},
      findEntryIn l h = some e → e ∈ l := by
  intro l
  induction l with
  | nil => intro h e hf; exact absurd hf (by simp [findEntryIn])
  | cons x rest ih =>
    intro h e hf
    by_cases hx : x.hash = h
    · simp only [findEntryIn, if_pos hx, Option.some.injEq] at hf
      rw [← hf]; exact List.mem_cons_self x rest
    · simp only [findEntryIn, if_neg hx] at hf
      exact List.mem_cons_of_mem x (ih hf)

theorem mem_insertEntry {l : List ChainEntry} {e x : ChainEntry}
    (hm : x ∈ insertEntry l e) : x = e ∨ x ∈ l := by
  unfold insertEntry at hm
  rcases List.mem_cons.mp hm with h1 | h2
  · exact Or.inl h1
  · exact Or.inr (List.mem_of_mem_filter h2)

theorem assocFind_filter_ne {α : Type} (k h : Nat) (hne : h ≠ k) :
    ∀ l : List (Nat × α),
      assocFind (l.filter (fun kv => kv.1 ≠ k)) h = assocFind l h := by
  intro l
  induction l with
  | nil => rfl
  | cons kv rest ih =>
    rw [List.filter_cons]
    by_cases hk : kv.1 = k
    · rw [if_neg (by simp [hk])]
      rw [ih]
      have hkh : ¬kv.1 = h := fun hh => hne (by rw [← hh, hk])
      simp [assocFind, hkh]
    · rw [if_pos (by simp [hk])]
      by_cases hkh : kv.1 = h
      · simp [assocFind, hkh]
      · simp only [assocFind, if_neg hkh]
        exact ih

theorem assocFind_insert {α : Type} (l : List (Nat × α)) (k : Nat) (a : α)
    (h : Nat) :
    assocFind (assocInsert l k a) h = if k = h then some a else assocFind l h := by
  by_cases hk : k = h
  · simp [assocInsert, assocFind, hk]
  · simp only [assocInsert, assocFind, hk, if_neg hk]
    exact assocFind_filter_ne k h (fun hc => hk hc.symm) l

theorem entryParentOk_congr (c1 c2 : Chain) (x : ChainEntry)
    (hcong : findEntry c2 x.prevBlock = findEntry c1 x.prevBlock)
    (h : entryParentOk c1 x) : entryParentOk c2 x := by
  unfold entryParentOk at h ⊢
  rw [hcong]
  exact h

theorem map_blockTxCount_congr (c1 c2 : Chain) :
    ∀ path : List Nat,
      (∀ h ∈ path, getBlock c2 h = getBlock c1 h) →
      path.map (blockTxCount c2) = path.map (blockTxCount c1) := by
  intro path
  induction path with
  | nil => intro _; rfl
  | cons h rest ih =>
    intro hcong
    simp only [List.map_cons]
    rw [ih (fun x hx => hcong x (List.mem_cons_of_mem h hx))]
    have : blockTxCount c2 h = blockTxCount c1 h := by
      unfold blockTxCount
      rw [hcong h (List.mem_cons_self h rest)]
    rw [this]

end Bcoin

namespace Bcoin

/-- One connect step preserves well-formedness and exact aggregate
tracking, whether the entry is a fresh, unreferenced hash or an identical
re-insert of an already-indexed side-branch entry. -/
theorem connectBlock_step (c c' : Chain) (e : ChainEntry) (b : Block)
    (hwf : wf c) (hst : stateOk c)
    (hprev : e.prevBlock = c.tip)
    (hheight : e.height = tipHeight c + 1)
    (hcase : (findEntry c e.hash = some e ∧ getBlock c e.hash = some b) ∨
      (findEntry c e.hash = none ∧ ∀ x ∈ c.entries, x.prevBlock ≠ e.hash))
    (hok : connectBlock c e b = .ok c') :
    wf c' ∧ stateOk c' ∧ c'.tip = e.hash ∧
    (∀ x ∈ c'.entries, x = e ∨ x ∈ c.entries) ∧
    c'.segwit = c.segwit ∧
    ((findEntry c e.hash = some e ∧ getBlock c e.hash = some b) →
      (∀ h, findEntry c' h = findEntry c h) ∧
      (∀ h, getBlock c' h = getBlock c h)) := by
  obtain ⟨hnd, htsome, hclosed, hW4⟩ := hwf
  obtain ⟨hv, hcn, htx⟩ := hst
  obtain ⟨te, hte⟩ := Option.isSome_iff_exists.mp htsome
  unfold connectBlock at hok
  cases hcb : checkBlock c.segwit b with
  | some r => exact absurd hok (by simp [hcb])
  | none =>
    simp only [hcb] at hok
    cases hct : connectTxs e.height c.utxo c.state b.txs with
    | error r => exact absurd hok (by simp [hct])
    | ok res =>
      obtain ⟨u1, st1, uns⟩ := res
      simp only [hct, Except.ok.injEq] at hok
      have hent : c'.entries = insertEntry c.entries e := by rw [← hok]
      have hblk : c'.blocks = assocInsert c.blocks e.hash b := by rw [← hok]
      have htip : c'.tip = e.hash := by rw [← hok]
      have hutxo : c'.utxo = u1 := by rw [← hok]
      have hstate : c'.state = st1 := by rw [← hok]
      have hsgw : c'.segwit = c.segwit := by rw [← hok]
      have hA : ∀ h, findEntry c' h =
          if e.hash = h then some e else findEntry c h := by
        intro h
        unfold findEntry
        rw [hent]
        exact findEntryIn_insertEntry c.entries e h
      have hB : ∀ h, getBlock c' h =
          if e.hash = h then some b else getBlock c h := by
        intro h
        unfold getBlock
        rw [hblk]
        exact assocFind_insert c.blocks e.hash b h
      have hthc : tipHeight c = te.height := by
        unfold tipHeight
        rw [hte]
        rfl
      have hnetip : e.hash ≠ c.tip := by
        rcases hcase with ⟨hsame, -⟩ | ⟨hfresh, -⟩
        · intro hh
          have hsome : tipEntry c = some e := by
            unfold tipEntry
            rw [← hh]
            exact hsame
          rw [hte] at hsome
          have hte2 : te = e := Option.some.inj hsome
          rw [hthc, hte2] at hheight
          omega
        · intro hh
          unfold tipEntry at hte
          rw [← hh, hfresh] at hte
          exact absurd hte (by simp)
      have hCtip : tipEntry c' = some e := by
        unfold tipEntry
        rw [htip, hA, if_pos rfl]
      have hD : tipHeight c' = e.height := by
        unfold tipHeight
        rw [hCtip]
        rfl
      have hfec : findEntry c c.tip = some te := hte
      have hwalk : walkPath c' (tipHeight c + 1) c.tip =
          walkPath c (tipHeight c + 1) c.tip := by
        rcases hcase with ⟨hsame, -⟩ | ⟨hfresh, -⟩
        · apply walkPath_congr
          intro h
          rw [hA h]
          by_cases hh : e.hash = h
          · rw [if_pos hh, ← hh]
            exact hsame.symm
          · rw [if_neg hh]
        · exact walkPath_insert_fresh c c' e hent hfresh _ _ hclosed
      have hE : mainPath c' = e.hash :: mainPath c := by
        have hfe2 : findEntry c' e.hash = some e := by
          rw [hA, if_pos rfl]
        show walkPath c' (tipHeight c' + 1) c'.tip = e.hash :: mainPath c
        rw [hD, htip]
        have hstep : walkPath c' (e.height + 1) e.hash =
            e.hash :: walkPath c' e.height e.prevBlock := by
          simp only [walkPath, hfe2]
        rw [hstep, hprev, hheight, hwalk]
        rfl
      have hF : (mainPath c').length = tipHeight c' + 1 := by
        rw [hE, hD, List.length_cons, hclosed, hheight]
      have hG : ∀ x ∈ c'.entries, entryParentOk c' x := by
        intro x hx
        rw [hent] at hx
        rcases mem_insertEntry hx with hxe | hxold
        · subst hxe
          unfold entryParentOk
          rw [hprev, hA, if_neg hnetip, hfec]
          show x.height = te.height + 1
          rw [hheight, hthc]
        · have hold : entryParentOk c x := hW4 x hxold
          apply entryParentOk_congr c c' x _ hold
          rw [hA]
          rcases hcase with ⟨hsame, -⟩ | ⟨hfresh, hfr2⟩
          · by_cases hh : e.hash = x.prevBlock
            · rw [if_pos hh, ← hh]
              exact hsame.symm
            · rw [if_neg hh]
          · rw [if_neg (fun hh => hfr2 x hxold hh.symm)]
      have hvc : vcOk c.utxo c.state := ⟨hnd, hv, hcn⟩
      obtain ⟨hvc', htx'⟩ := connectTxs_vc hvc hct
      have hstate' : stateOk c' := by
        refine ⟨?_, ?_, ?_⟩
        · rw [hstate, hutxo]
          exact hvc'.2.1
        · rw [hstate, hutxo]
          exact hvc'.2.2
        · rw [hstate]
          show st1.tx = mainTxs c'
          unfold mainTxs
          rw [hE]
          simp only [List.map_cons, List.sum_cons]
          have hhd : blockTxCount c' e.hash = b.txs.length := by
            unfold blockTxCount
            rw [hB, if_pos rfl]
            rfl
          have htl : (mainPath c).map (blockTxCount c') =
              (mainPath c).map (blockTxCount c) := by
            apply map_blockTxCount_congr
            intro h hm
            rw [hB]
            rcases hcase with ⟨hsame, hblkc⟩ | ⟨hfresh, -⟩
            · by_cases hh : e.hash = h
              · rw [if_pos hh, ← hh]
                exact hblkc.symm
              · rw [if_neg hh]
            · rw [if_neg ?hfneg]
              case hfneg =>
                intro hh
                rcases mem_walkPath_findEntry c _ _ h hm with ⟨e0, he0⟩
                rw [← hh, hfresh] at he0
                exact absurd he0 (by simp)
          rw [hhd, htl, htx', htx]
          show mainTxs c + b.txs.length = b.txs.length + mainTxs c
          omega
      refine ⟨⟨by rw [hutxo]; exact hvc'.1, by rw [hCtip]; rfl, hF, hG⟩,
        hstate', htip, ?_, hsgw, ?_⟩
      · intro x hx
        rw [hent] at hx
        exact mem_insertEntry hx
      · rintro ⟨hsame, hblkc⟩
        constructor
        · intro h
          rw [hA]
          by_cases hh : e.hash = h
          · rw [if_pos hh, ← hh]
            exact hsame.symm
          · rw [if_neg hh]
        · intro h
          rw [hB]
          by_cases hh : e.hash = h
          · rw [if_pos hh, ← hh]
            exact hblkc.symm
          · rw [if_neg hh]

end Bcoin

namespace Bcoin

theorem mainPath_cons (c : Chain) (te : ChainEntry) (hte : tipEntry c = some te) :
    mainPath c = c.tip :: walkPath c (tipHeight c) te.prevBlock := by
  have hfe : findEntry c c.tip = some te := hte
  show walkPath c (tipHeight c + 1) c.tip = _
  simp only [walkPath, hfe]

/-- One disconnect step preserves well-formedness and exact aggregate
tracking, pops the main path by one, and leaves index and blocks
untouched. -/
theorem disconnectBlock_step (c : Chain) (te : ChainEntry) (blk : Block)
    (und : List Undo)
    (hwf : wf c) (hst : stateOk c)
    (hte : tipEntry c = some te)
    (hgb : getBlock c c.tip = some blk)
    (hpos : 0 < tipHeight c) :
    wf (disconnectBlock c te blk und) ∧
    stateOk (disconnectBlock c te blk und) ∧
    (disconnectBlock c te blk und).entries = c.entries ∧
    (disconnectBlock c te blk und).blocks = c.blocks ∧
    (disconnectBlock c te blk und).segwit = c.segwit ∧
    mainPath c = c.tip :: mainPath (disconnectBlock c te blk und) := by
  obtain ⟨hnd, htsome, hclosed, hW4⟩ := hwf
  obtain ⟨hv, hcn, htx⟩ := hst
  set c1 := disconnectBlock c te blk und with hc1
  have hent : c1.entries = c.entries := rfl
  have hblks : c1.blocks = c.blocks := rfl
  have htip1 : c1.tip = te.prevBlock := rfl
  have hsgw : c1.segwit = c.segwit := rfl
  have hcong : ∀ h, findEntry c1 h = findEntry c h := fun h => rfl
  have hgcong : ∀ h, getBlock c1 h = getBlock c h := fun h => rfl
  have hthc : tipHeight c = te.height := by
    unfold tipHeight
    rw [hte]
    rfl
  have hrest : mainPath c = c.tip :: walkPath c (tipHeight c) te.prevBlock :=
    mainPath_cons c te hte
  have hrlen : (walkPath c (tipHeight c) te.prevBlock).length = tipHeight c := by
    have := hclosed
    rw [hrest] at this
    simp only [List.length_cons] at this
    omega
  -- the parent of the tip is indexed
  obtain ⟨m, hm⟩ := Nat.exists_eq_succ_of_ne_zero (Nat.pos_iff_ne_zero.mp hpos)
  have hp : ∃ p, findEntry c te.prevBlock = some p := by
    rw [hm] at hrlen
    cases hfp : findEntry c te.prevBlock with
    | none =>
      simp only [walkPath, hfp] at hrlen
      exact absurd hrlen (by simp)
    | some p => exact ⟨p, rfl⟩
  obtain ⟨p, hpfe⟩ := hp
  have hteheight : te.height = p.height + 1 := by
    have hmem : te ∈ c.entries := findEntryIn_some_mem hte
    have := hW4 te hmem
    unfold entryParentOk at this
    rw [hpfe] at this
    exact this
  have htipe1 : tipEntry c1 = some p := by
    unfold tipEntry
    rw [htip1, hcong]
    exact hpfe
  have hth1 : tipHeight c1 = p.height := by
    unfold tipHeight
    rw [htipe1]
    rfl
  have hpath1 : mainPath c1 = walkPath c (tipHeight c) te.prevBlock := by
    unfold mainPath
    rw [hth1, htip1, walkPath_congr c c1 hcong]
    have : p.height + 1 = tipHeight c := by rw [hthc, hteheight]
    rw [this]
  have hclosed1 : (mainPath c1).length = tipHeight c1 + 1 := by
    rw [hpath1, hrlen, hth1, hthc, hteheight]
  have hW41 : ∀ x ∈ c1.entries, entryParentOk c1 x := by
    intro x hx
    rw [hent] at hx
    exact entryParentOk_congr c c1 x (hcong x.prevBlock) (hW4 x hx)
  -- aggregates
  have hvc : vcOk c.utxo c.state := ⟨hnd, hv, hcn⟩
  obtain ⟨hvc1, htx1⟩ := @disconnectTxs_vc ((blk.txs.zip und).reverse)
    c.utxo c.state hvc
  have hutxo1 : c1.utxo = (disconnectTxs c.utxo c.state
      ((blk.txs.zip und).reverse)).1 := rfl
  have hstate1 : c1.state = { (disconnectTxs c.utxo c.state
      ((blk.txs.zip und).reverse)).2 with
        tx := (disconnectTxs c.utxo c.state
          ((blk.txs.zip und).reverse)).2.tx - blk.txs.length } := rfl
  have hmt : mainTxs c = blk.txs.length + mainTxs c1 := by
    unfold mainTxs
    rw [hrest, hpath1]
    simp only [List.map_cons, List.sum_cons]
    have hhd : blockTxCount c c.tip = blk.txs.length := by
      unfold blockTxCount
      rw [hgb]
      rfl
    rw [hhd,
      map_blockTxCount_congr c c1 (walkPath c (tipHeight c) te.prevBlock)
        (fun h _ => hgcong h)]
  have hst1 : stateOk c1 := by
    refine ⟨?_, ?_, ?_⟩
    · rw [hstate1, hutxo1]
      exact hvc1.2.1
    · rw [hstate1, hutxo1]
      exact hvc1.2.2
    · rw [hstate1]
      show (disconnectTxs c.utxo c.state
        ((blk.txs.zip und).reverse)).2.tx - blk.txs.length = mainTxs c1
      rw [htx1, htx, hmt]
      omega
  refine ⟨⟨?_, ?_, hclosed1, hW41⟩, hst1, hent, hblks, hsgw, ?_⟩
  · show nodupKeys c1.utxo
    rw [hutxo1]
    exact hvc1.1
  · rw [htipe1]
    rfl
  · rw [hrest, hpath1]

theorem disconnectTo_preserves :
    ∀ (fuel : Nat) (c0 : Chain) (anc : Nat) (c1 : Chain),
      wf c0 → stateOk c0 → anc ∈ mainPath c0 →
      disconnectTo fuel c0 anc = some c1 →
      wf c1 ∧ stateOk c1 ∧ c1.tip = anc ∧
      c1.entries = c0.entries ∧ c1.blocks = c0.blocks ∧
      c1.segwit = c0.segwit := by
  intro fuel
  induction fuel with
  | zero => intro c0 anc c1 _ _ _ h; exact absurd h (by simp [disconnectTo])
  | succ n ih =>
    intro c0 anc c1 hwf hst hanc h
    unfold disconnectTo at h
    by_cases htip : c0.tip = anc
    · rw [if_pos htip] at h
      simp only [Option.some.injEq] at h
      rw [← h]
      exact ⟨hwf, hst, htip, rfl, rfl, rfl⟩
    · rw [if_neg htip] at h
      cases hte : tipEntry c0 with
      | none =>
        obtain ⟨-, htsome, -, -⟩ := hwf
        rw [hte] at htsome
        exact absurd htsome (by simp)
      | some te =>
        cases hgb : getBlock c0 c0.tip with
        | none => rw [hte, hgb] at h; exact absurd h (by simp)
        | some blk =>
          cases hgu : getUndo c0 c0.tip with
          | none => rw [hte, hgb, hgu] at h; exact absurd h (by simp)
          | some und =>
            rw [hte, hgb, hgu] at h
            have hpos : 0 < tipHeight c0 := by
              by_contra hz
              have hz0 : tipHeight c0 = 0 := by omega
              have hrest := mainPath_cons c0 te hte
              rw [hz0] at hrest
              simp only [walkPath] at hrest
              rw [hrest] at hanc
              rcases List.mem_cons.mp hanc with h1 | h2
              · exact htip h1.symm
              · simp at h2
            obtain ⟨hwf1, hst1, hent1, hblk1, hsgw1, hpath1⟩ :=
              disconnectBlock_step c0 te blk und hwf hst hte hgb hpos
            have hanc1 : anc ∈ mainPath (disconnectBlock c0 te blk und) := by
              rw [hpath1] at hanc
              rcases List.mem_cons.mp hanc with h1 | h2
              · exact absurd h1.symm htip
              · exact h2
            obtain ⟨hwf2, hst2, htip2, hent2, hblk2, hsgw2⟩ :=
              ih (disconnectBlock c0 te blk und) anc c1 hwf1 hst1 hanc1 h
            exact ⟨hwf2, hst2, htip2, by rw [hent2]; exact hent1,
              by rw [hblk2]; exact hblk1, by rw [hsgw2]; exact hsgw1⟩

theorem chainOk_append (c : Chain) :
    ∀ (l : List (ChainEntry × Block)) (start mid : Nat) (e : ChainEntry)
      (bk : Block),
      chainOk c start l mid → e.prevBlock = mid →
      findEntry c e.hash = some e → getBlock c e.hash = some bk →
      chainOk c start (l ++ [(e, bk)]) e.hash := by
  intro l
  induction l with
  | nil =>
    intro start mid e bk hco hprev hfe hgb
    unfold chainOk at hco
    exact ⟨by rw [hprev, ← hco], hfe, hgb, rfl⟩
  | cons eb rest ih =>
    intro start mid e bk hco hprev hfe hgb
    obtain ⟨h1, h2, h3, h4⟩ := hco
    exact ⟨h1, h2, h3, ih eb.1.hash mid e bk h4 hprev hfe hgb⟩

theorem findFork_spec (c : Chain) :
    ∀ (fuel h anc : Nat) (l : List (ChainEntry × Block)),
      findFork c fuel h = some (anc, l) →
      isMainChain c anc = true ∧ chainOk c anc l h := by
  intro fuel
  induction fuel with
  | zero => intro h anc l hf; exact absurd hf (by simp [findFork])
  | succ n ih =>
    intro h anc l hf
    unfold findFork at hf
    by_cases hmain : isMainChain c h
    · rw [if_pos hmain] at hf
      simp only [Option.some.injEq, Prod.mk.injEq] at hf
      obtain ⟨ha, hl⟩ := hf
      rw [← ha, ← hl]
      exact ⟨hmain, rfl⟩
    · rw [if_neg hmain] at hf
      cases hfe : findEntry c h with
      | none => rw [hfe] at hf; exact absurd hf (by simp)
      | some e =>
        cases hgb : getBlock c h with
        | none => rw [hfe, hgb] at hf; exact absurd hf (by simp)
        | some blk =>
          rw [hfe, hgb] at hf
          cases hrec : findFork c n e.prevBlock with
          | none =>
            simp only [hrec] at hf
            exact absurd hf (by simp)
          | some al =>
            simp only [hrec, Option.some.injEq, Prod.mk.injEq] at hf
            obtain ⟨ha, hl⟩ := hf
            obtain ⟨hmain2, hco⟩ := ih e.prevBlock al.1 al.2 (by
              rw [hrec])
            have hhash : e.hash = h := findEntryIn_some_hash hfe
            refine ⟨by rw [← ha]; exact hmain2, ?_⟩
            rw [← hl, ← ha, ← hhash]
            exact chainOk_append c al.2 al.1 e.prevBlock e blk hco rfl
              (by rw [hhash]; exact hfe) (by rw [hhash]; exact hgb)

theorem connectAll_preserves (cref : Chain) :
    ∀ (l : List (ChainEntry × Block)) (c0 c1 : Chain) (stop : Nat),
      chainOk cref c0.tip l stop →
      wf c0 → stateOk c0 →
      (∀ h, findEntry c0 h = findEntry cref h) →
      (∀ h, getBlock c0 h = getBlock cref h) →
      (∀ x ∈ c0.entries, x ∈ cref.entries) →
      connectAll c0 l = .ok c1 →
      wf c1 ∧ stateOk c1 ∧ c1.tip = stop ∧
      (∀ h, findEntry c1 h = findEntry cref h) ∧
      (∀ h, getBlock c1 h = getBlock cref h) ∧
      (∀ x ∈ c1.entries, x ∈ cref.entries) := by
  intro l
  induction l with
  | nil =>
    intro c0 c1 stop hco hwf hst hcf hcg hsub hok
    simp only [connectAll, Except.ok.injEq] at hok
    unfold chainOk at hco
    rw [← hok]
    exact ⟨hwf, hst, hco, hcf, hcg, hsub⟩
  | cons eb rest ih =>
    intro c0 c1 stop hco hwf hst hcf hcg hsub hok
    obtain ⟨hprev, hfe, hgb, hco2⟩ := hco
    simp only [connectAll] at hok
    cases hcb : connectBlock c0 eb.1 eb.2 with
    | error r => exact absurd hok (by simp [hcb])
    | ok cmid =>
      simp only [hcb] at hok
      -- the entry sits one above the current tip
      obtain ⟨te0, hte0⟩ := Option.isSome_iff_exists.mp hwf.2.1
      have hfe0 : findEntry c0 eb.1.hash = some eb.1 := by
        rw [hcf]; exact hfe
      have hgb0 : getBlock c0 eb.1.hash = some eb.2 := by
        rw [hcg]; exact hgb
      have hmem0 : eb.1 ∈ c0.entries := findEntryIn_some_mem hfe0
      have hth0 : tipHeight c0 = te0.height := by
        unfold tipHeight
        rw [hte0]
        rfl
      have hheight : eb.1.height = tipHeight c0 + 1 := by
        have := hwf.2.2.2 eb.1 hmem0
        unfold entryParentOk at this
        rw [hprev] at this
        have hfet : findEntry c0 c0.tip = some te0 := hte0
        rw [hfet] at this
        rw [this, hth0]
      obtain ⟨hwfm, hstm, htipm, hsubm, hsgwm, hextm⟩ :=
        connectBlock_step c0 cmid eb.1 eb.2 hwf hst hprev hheight
          (Or.inl ⟨hfe0, hgb0⟩) hcb
      obtain ⟨hextf, hextg⟩ := hextm ⟨hfe0, hgb0⟩
      have hcfm : ∀ h, findEntry cmid h = findEntry cref h := by
        intro h
        rw [hextf, hcf]
      have hcgm : ∀ h, getBlock cmid h = getBlock cref h := by
        intro h
        rw [hextg, hcg]
      have hsubm2 : ∀ x ∈ cmid.entries, x ∈ cref.entries := by
        intro x hx
        rcases hsubm x hx with h1 | h2
        · rw [h1]
          exact findEntryIn_some_mem hfe
        · exact hsub x h2
      have hcom : chainOk cref cmid.tip rest stop := by
        rw [htipm]
        exact hco2
      exact ih cmid c1 stop hcom hwfm hstm hcfm hcgm hsubm2 hok

end Bcoin

namespace Bcoin

theorem mainPath_events (c : Chain) (evs : List Event) :
    mainPath { c with events := evs } = mainPath c := by
  show walkPath { c with events := evs } (tipHeight { c with events := evs } + 1)
    c.tip = walkPath c (tipHeight c + 1) c.tip
  have h0 : tipHeight { c with events := evs } = tipHeight c := rfl
  rw [h0]
  exact walkPath_congr c { c with events := evs } (fun h => rfl) _ _

theorem wf_events (c : Chain) (evs : List Event) (h : wf c) :
    wf { c with events := evs } := by
  obtain ⟨h1, h2, h3, h4⟩ := h
  refine ⟨h1, h2, ?_, ?_⟩
  · show (mainPath { c with events := evs }).length =
      tipHeight { c with events := evs } + 1
    rw [mainPath_events]
    exact h3
  · intro x hx
    exact entryParentOk_congr c { c with events := evs } x rfl (h4 x hx)

theorem stateOk_events (c : Chain) (evs : List Event) (h : stateOk c) :
    stateOk { c with events := evs } := by
  obtain ⟨h1, h2, h3⟩ := h
  refine ⟨h1, h2, ?_⟩
  show c.state.tx = mainTxs { c with events := evs }
  unfold mainTxs
  rw [mainPath_events]
  rw [map_blockTxCount_congr c { c with events := evs } (mainPath c)
    (fun hh _ => rfl)]
  exact h3

/-- Indexing a dormant side-branch entry (step 5 of `add`) preserves
well-formedness and exact aggregate tracking. -/
theorem sideInsert_step (c : Chain) (e : ChainEntry) (b : Block)
    (hwf : wf c) (hst : stateOk c)
    (hfresh : findEntry c e.hash = none)
    (hfresh2 : ∀ x ∈ c.entries, x.prevBlock ≠ e.hash)
    (hpe : ∃ p, findEntry c e.prevBlock = some p ∧ e.height = p.height + 1) :
    wf { c with entries := insertEntry c.entries e
                blocks := assocInsert c.blocks e.hash b } ∧
    stateOk { c with entries := insertEntry c.entries e
                     blocks := assocInsert c.blocks e.hash b } := by
  obtain ⟨hnd, htsome, hclosed, hW4⟩ := hwf
  obtain ⟨hv, hcn, htx⟩ := hst
  obtain ⟨te, hte⟩ := Option.isSome_iff_exists.mp htsome
  obtain ⟨p, hpfe, hph⟩ := hpe
  set c2 : Chain := { c with entries := insertEntry c.entries e
                             blocks := assocInsert c.blocks e.hash b } with hc2
  have hA : ∀ h, findEntry c2 h =
      if e.hash = h then some e else findEntry c h := by
    intro h
    show findEntryIn (insertEntry c.entries e) h = _
    exact findEntryIn_insertEntry c.entries e h
  have hB : ∀ h, getBlock c2 h =
      if e.hash = h then some b else getBlock c h := by
    intro h
    show assocFind (assocInsert c.blocks e.hash b) h = _
    exact assocFind_insert c.blocks e.hash b h
  have hnetip : e.hash ≠ c.tip := by
    intro hh
    unfold tipEntry at hte
    rw [← hh, hfresh] at hte
    exact absurd hte (by simp)
  have htipe2 : tipEntry c2 = some te := by
    unfold tipEntry
    show findEntry c2 c.tip = some te
    rw [hA, if_neg hnetip]
    exact hte
  have hth2 : tipHeight c2 = tipHeight c := by
    unfold tipHeight
    rw [htipe2, hte]
  have hpath2 : mainPath c2 = mainPath c := by
    unfold mainPath
    rw [hth2]
    show walkPath c2 (tipHeight c + 1) c.tip = _
    exact walkPath_insert_fresh c c2 e rfl hfresh _ _ hclosed
  have hnotmem : e.hash ∉ mainPath c := by
    intro hm
    rcases mem_walkPath_findEntry c _ _ e.hash hm with ⟨e0, he0⟩
    rw [hfresh] at he0
    exact absurd he0 (by simp)
  have hW42 : ∀ x ∈ c2.entries, entryParentOk c2 x := by
    intro x hx
    have hx2 : x ∈ insertEntry c.entries e := hx
    rcases mem_insertEntry hx2 with hxe | hxold
    · rw [hxe]
      unfold entryParentOk
      have hne2 : e.hash ≠ e.prevBlock := by
        intro hh
        rw [← hh, hfresh] at hpfe
        exact absurd hpfe (by simp)
      rw [hA, if_neg hne2, hpfe]
      exact hph
    · apply entryParentOk_congr c c2 x _ (hW4 x hxold)
      rw [hA, if_neg (fun hh => hfresh2 x hxold hh.symm)]
  have hmt2 : mainTxs c2 = mainTxs c := by
    unfold mainTxs
    rw [hpath2]
    apply congrArg
    apply map_blockTxCount_congr
    intro h hm
    rw [hB, if_neg (fun hh => hnotmem (by rw [hh]; exact hm))]
  refine ⟨⟨hnd, ?_, ?_, hW42⟩, hv, hcn, ?_⟩
  · rw [htipe2]
    rfl
  · rw [hpath2, hth2]
    exact hclosed
  · show c.state.tx = mainTxs c2
    rw [hmt2]
    exact htx

end Bcoin

/-! ## Claim C4: the aggregate state exactly tracks the UTXO set -/

/-- C4: after every `add` call on a well-formed chain whose aggregate
state exactly tracks the UTXO set and the main chain — whichever path the
call takes: direct connect, dormant side branch, reorganization, or
rejection — the resulting chain again satisfies exact tracking: recorded
total value is the sum of unspent coin values, recorded coin count is the
cardinality of the UTXO set, recorded transaction count is the number of
transactions in main-chain blocks (and well-formedness is preserved). -/
theorem c4_aggregate_tracks_utxo
    (c : Bcoin.Chain) (b : Bcoin.Block) (res : Bcoin.AddResult)
    (c' : Bcoin.Chain)
    (hwf : Bcoin.wf c) (hst : Bcoin.stateOk c)
    (hfresh : Bcoin.findEntry c b.header.hash = none)
    (hfresh2 : ∀ x ∈ c.entries, x.prevBlock ≠ b.header.hash)
    (hadd : Bcoin.add c b = (res, c')) :
    Bcoin.stateOk c' ∧ Bcoin.wf c' := by
  cases hfe : Bcoin.findEntry c b.header.prevBlock with
  | none =>
    simp only [Bcoin.add, hfe] at hadd
    have hcc : c' = c := (congrArg Prod.snd hadd).symm
    rw [hcc]
    exact ⟨hst, hwf⟩
  | some prev =>
    simp only [Bcoin.add, hfe] at hadd
    by_cases hp : b.header.prevBlock = c.tip
    · rw [if_pos hp] at hadd
      cases hcb : Bcoin.connectBlock c (Bcoin.buildEntry prev b) b with
      | error r =>
        simp only [hcb] at hadd
        have hcc : c' = c := (congrArg Prod.snd hadd).symm
        rw [hcc]
        exact ⟨hst, hwf⟩
      | ok c1 =>
        simp only [hcb] at hadd
        have hc' : c' = c1 := (congrArg Prod.snd hadd).symm
        subst hc'
        have hte : Bcoin.tipEntry c = some prev := by
          unfold Bcoin.tipEntry
          rw [← hp]
          exact hfe
        have hheight : (Bcoin.buildEntry prev b).height =
            Bcoin.tipHeight c + 1 := by
          show prev.height + 1 = Bcoin.tipHeight c + 1
          unfold Bcoin.tipHeight
          rw [hte]
          rfl
        obtain ⟨hwf1, hst1, -, -, -, -⟩ :=
          Bcoin.connectBlock_step c c' (Bcoin.buildEntry prev b) b hwf hst hp
            hheight (Or.inr ⟨hfresh, hfresh2⟩) hcb
        exact ⟨hst1, hwf1⟩
    · rw [if_neg hp] at hadd
      obtain ⟨te, hte⟩ := Option.isSome_iff_exists.mp hwf.2.1
      simp only [hte] at hadd
      by_cases hw : (Bcoin.buildEntry prev b).chainwork ≤ te.chainwork
      · rw [if_pos hw] at hadd
        have hc' : c' =
            { c with
              entries := Bcoin.insertEntry c.entries (Bcoin.buildEntry prev b)
              blocks :=
                Bcoin.assocInsert c.blocks (Bcoin.buildEntry prev b).hash b } :=
          (congrArg Prod.snd hadd).symm
        have hside := Bcoin.sideInsert_step c (Bcoin.buildEntry prev b) b hwf
          hst hfresh hfresh2 ⟨prev, hfe, rfl⟩
        rw [hc']
        exact ⟨hside.2, hside.1⟩
      · rw [if_neg hw] at hadd
        cases hrg : Bcoin.reorg c te (Bcoin.buildEntry prev b) b with
        | error r =>
          simp only [hrg] at hadd
          have hcc : c' = c := (congrArg Prod.snd hadd).symm
          rw [hcc]
          exact ⟨hst, hwf⟩
        | ok c1 =>
          simp only [hrg] at hadd
          have hc' : c' = c1 := (congrArg Prod.snd hadd).symm
          subst hc'
          unfold Bcoin.reorg at hrg
          cases hff : Bcoin.findFork c ((Bcoin.buildEntry prev b).height + 1)
              b.header.prevBlock with
          | none =>
            simp only [hff] at hrg
            exact absurd hrg (by simp)
          | some ab =>
            simp only [hff] at hrg
            cases hdt : Bcoin.disconnectTo (te.height + 1) c ab.1 with
            | none =>
              simp only [hdt] at hrg
              exact absurd hrg (by simp)
            | some cd =>
              simp only [hdt] at hrg
              cases hca : Bcoin.connectAll
                  { cd with events := cd.events ++
                      [.reorganize (Bcoin.buildEntry prev b).hash] } ab.2 with
              | error r =>
                simp only [hca] at hrg
                exact absurd hrg (by simp)
              | ok c3 =>
                simp only [hca] at hrg
                obtain ⟨hmain, hco⟩ := Bcoin.findFork_spec c
                  ((Bcoin.buildEntry prev b).height + 1) b.header.prevBlock
                  ab.1 ab.2 (by rw [hff])
                have hancmem : ab.1 ∈ Bcoin.mainPath c :=
                  of_decide_eq_true hmain
                obtain ⟨hwfd, hstd, htipd, hentd, hblkd, hsgwd⟩ :=
                  Bcoin.disconnectTo_preserves (te.height + 1) c ab.1 cd hwf
                    hst hancmem hdt
                have hwfe : Bcoin.wf { cd with events := cd.events ++
                    [.reorganize (Bcoin.buildEntry prev b).hash] } :=
                  Bcoin.wf_events cd _ hwfd
                have hste : Bcoin.stateOk { cd with events := cd.events ++
                    [.reorganize (Bcoin.buildEntry prev b).hash] } :=
                  Bcoin.stateOk_events cd _ hstd
                have hcfe : ∀ h, Bcoin.findEntry { cd with events :=
                    cd.events ++ [.reorganize (Bcoin.buildEntry prev b).hash] }
                    h = Bcoin.findEntry c h := by
                  intro h
                  show Bcoin.findEntryIn cd.entries h = _
                  rw [hentd]
                  rfl
                have hcge : ∀ h, Bcoin.getBlock { cd with events :=
                    cd.events ++ [.reorganize (Bcoin.buildEntry prev b).hash] }
                    h = Bcoin.getBlock c h := by
                  intro h
                  show Bcoin.assocFind cd.blocks h = _
                  rw [hblkd]
                  rfl
                have hsube : ∀ x ∈ ({ cd with events := cd.events ++
                    [.reorganize (Bcoin.buildEntry prev b).hash] }
                      : Bcoin.Chain).entries, x ∈ c.entries := by
                  intro x hx
                  have hx2 : x ∈ cd.entries := hx
                  rw [hentd] at hx2
                  exact hx2
                have hcoe : Bcoin.chainOk c ({ cd with events := cd.events ++
                    [.reorganize (Bcoin.buildEntry prev b).hash] }
                      : Bcoin.Chain).tip ab.2 b.header.prevBlock := by
                  show Bcoin.chainOk c cd.tip ab.2 b.header.prevBlock
                  rw [htipd]
                  exact hco
                obtain ⟨hwf3, hst3, htip3, hcf3, hcg3, hsub3⟩ :=
                  Bcoin.connectAll_preserves c ab.2 _ c3 b.header.prevBlock
                    hcoe hwfe hste hcfe hcge hsube hca
                have hprev3 : (Bcoin.buildEntry prev b).prevBlock = c3.tip := by
                  show b.header.prevBlock = c3.tip
                  rw [htip3]
                have hte3 : Bcoin.tipEntry c3 = some prev := by
                  unfold Bcoin.tipEntry
                  rw [htip3, hcf3]
                  exact hfe
                have hheight3 : (Bcoin.buildEntry prev b).height =
                    Bcoin.tipHeight c3 + 1 := by
                  show prev.height + 1 = Bcoin.tipHeight c3 + 1
                  unfold Bcoin.tipHeight
                  rw [hte3]
                  rfl
                have hfresh3 : Bcoin.findEntry c3
                    (Bcoin.buildEntry prev b).hash = none := by
                  show Bcoin.findEntry c3 b.header.hash = none
                  rw [hcf3]
                  exact hfresh
                have hfresh32 : ∀ x ∈ c3.entries,
                    x.prevBlock ≠ (Bcoin.buildEntry prev b).hash := by
                  intro x hx
                  exact hfresh2 x (hsub3 x hx)
                obtain ⟨hwf1, hst1, -, -, -, -⟩ :=
                  Bcoin.connectBlock_step c3 c' (Bcoin.buildEntry prev b) b
                    hwf3 hst3 hprev3 hheight3 (Or.inr ⟨hfresh3, hfresh32⟩) hrg
                exact ⟨hst1, hwf1⟩

/-- Witness for C4: after a concrete reorganization (one disconnect, two
connects) the aggregate state still exactly tracks the UTXO set and the
main chain. -/
theorem c4_aggregate_tracks_utxo_witness :
    Bcoin.stateOk
      { entries := [⟨4, 3, 2, 1, 0, 0, 3⟩, ⟨3, 1, 1, 1, 0, 0, 2⟩,
          ⟨1, 0, 0, 1, 0, 0, 1⟩, ⟨2, 1, 1, 1, 0, 0, 2⟩]
        blocks := [(4, { header := ⟨4, 3, 1, 0, 0⟩
                         txs := [⟨12, 12, [], [⟨25, none⟩], 100, 0⟩] }),
                   (3, { header := ⟨3, 1, 1, 0, 0⟩
                         txs := [⟨11, 11, [], [⟨25, none⟩], 100, 0⟩] }),
                   (2, { header := ⟨2, 1, 1, 0, 0⟩
                         txs := [⟨10, 10, [], [⟨25, none⟩], 100, 0⟩] })]
        undos := [(4, [[]]), (3, [[]]), (2, [[]])]
        tip := 4
        utxo := [(⟨12, 0⟩, ⟨25, true, 2⟩), (⟨11, 0⟩, ⟨25, true, 1⟩)]
        state := ⟨50, 2, 2⟩
        segwit := false
        events := [.disconnect 2, .reorganize 4, .connect 3, .connect 4] } ∧
    Bcoin.wf
      { entries := [⟨4, 3, 2, 1, 0, 0, 3⟩, ⟨3, 1, 1, 1, 0, 0, 2⟩,
          ⟨1, 0, 0, 1, 0, 0, 1⟩, ⟨2, 1, 1, 1, 0, 0, 2⟩]
        blocks := [(4, { header := ⟨4, 3, 1, 0, 0⟩
                         txs := [⟨12, 12, [], [⟨25, none⟩], 100, 0⟩] }),
                   (3, { header := ⟨3, 1, 1, 0, 0⟩
                         txs := [⟨11, 11, [], [⟨25, none⟩], 100, 0⟩] }),
                   (2, { header := ⟨2, 1, 1, 0, 0⟩
                         txs := [⟨10, 10, [], [⟨25, none⟩], 100, 0⟩] })]
        undos := [(4, [[]]), (3, [[]]), (2, [[]])]
        tip := 4
        utxo := [(⟨12, 0⟩, ⟨25, true, 2⟩), (⟨11, 0⟩, ⟨25, true, 1⟩)]
        state := ⟨50, 2, 2⟩
        segwit := false
        events := [.disconnect 2, .reorganize 4, .connect 3, .connect 4] } := by
  have h := c4_aggregate_tracks_utxo
    { entries := [⟨1, 0, 0, 1, 0, 0, 1⟩, ⟨2, 1, 1, 1, 0, 0, 2⟩,
        ⟨3, 1, 1, 1, 0, 0, 2⟩]
      blocks := [(2, { header := ⟨2, 1, 1, 0, 0⟩
                       txs := [⟨10, 10, [], [⟨25, none⟩], 100, 0⟩] }),
                 (3, { header := ⟨3, 1, 1, 0, 0⟩
                       txs := [⟨11, 11, [], [⟨25, none⟩], 100, 0⟩] })]
      undos := [(2, [[]])]
      tip := 2
      utxo := [(⟨10, 0⟩, ⟨25, false, 1⟩)]
      state := ⟨25, 1, 1⟩
      segwit := false
      events := [] }
    { header := ⟨4, 3, 1, 0, 0⟩, txs := [⟨12, 12, [], [⟨25, none⟩], 100, 0⟩] }
    (.tip ⟨4, 3, 2, 1, 0, 0, 3⟩)
    { entries := [⟨4, 3, 2, 1, 0, 0, 3⟩, ⟨3, 1, 1, 1, 0, 0, 2⟩,
        ⟨1, 0, 0, 1, 0, 0, 1⟩, ⟨2, 1, 1, 1, 0, 0, 2⟩]
      blocks := [(4, { header := ⟨4, 3, 1, 0, 0⟩
                       txs := [⟨12, 12, [], [⟨25, none⟩], 100, 0⟩] }),
                 (3, { header := ⟨3, 1, 1, 0, 0⟩
                       txs := [⟨11, 11, [], [⟨25, none⟩], 100, 0⟩] }),
                 (2, { header := ⟨2, 1, 1, 0, 0⟩
                       txs := [⟨10, 10, [], [⟨25, none⟩], 100, 0⟩] })]
      undos := [(4, [[]]), (3, [[]]), (2, [[]])]
      tip := 4
      utxo := [(⟨12, 0⟩, ⟨25, true, 2⟩), (⟨11, 0⟩, ⟨25, true, 1⟩)]
      state := ⟨50, 2, 2⟩
      segwit := false
      events := [.disconnect 2, .reorganize 4, .connect 3, .connect 4] }
    (by decide) (by decide) rfl (by decide) rfl
  exact ⟨h.1, h.2⟩
